import Mathlib

/-!
# tinywaf: a verification model of `src/main.go`

The Go program is an HTTP reverse proxy that limits the request rate per client
(`allow`), inspects the query string and the POST body for attack signatures
(`checkMaliciousContent`, `WafProxy.checkSQLInjection`) and forwards what passes
(`WafProxy.ServeHTTP`).

A Go `string` and a `[]byte` are both modelled as a list of bytes.
-/

namespace TinyWaf

/-- A Go `string` or `[]byte`. -/
abbrev Bytes := List UInt8

/-- The bytes (UTF-8) of a string literal of the Go source. -/
def str (s : String) : Bytes := s.data.flatMap String.utf8EncodeChar

/-! ## Runes: how package `regexp` reads a Go string -/

/-- The rune `utf8.RuneError`. -/
def RuneError : Nat := 0xFFFD

/-- First-byte table of `unicode/utf8`: for a leading byte, the length of the encoding and the
range accepted for the second byte; `none` for a byte that starts no encoding. -/
def first (p0 : Nat) : Option (Nat × Nat × Nat) :=
  if 0xC2 ≤ p0 ∧ p0 ≤ 0xDF then some (2, 0x80, 0xBF)
  else if p0 = 0xE0 then some (3, 0xA0, 0xBF)
  else if p0 = 0xED then some (3, 0x80, 0x9F)
  else if 0xE1 ≤ p0 ∧ p0 ≤ 0xEF then some (3, 0x80, 0xBF)
  else if p0 = 0xF0 then some (4, 0x90, 0xBF)
  else if 0xF1 ≤ p0 ∧ p0 ≤ 0xF3 then some (4, 0x80, 0xBF)
  else if p0 = 0xF4 then some (4, 0x80, 0x8F)
  else none

/-- The function `utf8.DecodeRune`: the first rune of `p` and its width in bytes. An invalid
encoding yields `(RuneError, 1)`, the empty input `(RuneError, 0)`. -/
def DecodeRune : Bytes → Nat × Nat
  | [] => (RuneError, 0)
  | b0 :: rest =>
    let p0 := b0.toNat
    if p0 < 0x80 then (p0, 1)
    else
      match first p0, rest with
      | some (2, lo, hi), b1 :: _ =>
        if b1.toNat < lo ∨ hi < b1.toNat then (RuneError, 1)
        else ((p0 % 0x20) * 0x40 + b1.toNat % 0x40, 2)
      | some (3, lo, hi), b1 :: b2 :: _ =>
        if b1.toNat < lo ∨ hi < b1.toNat then (RuneError, 1)
        else if b2.toNat < 0x80 ∨ 0xBF < b2.toNat then (RuneError, 1)
        else ((p0 % 0x10) * 0x1000 + (b1.toNat % 0x40) * 0x40 + b2.toNat % 0x40, 3)
      | some (4, lo, hi), b1 :: b2 :: b3 :: _ =>
        if b1.toNat < lo ∨ hi < b1.toNat then (RuneError, 1)
        else if b2.toNat < 0x80 ∨ 0xBF < b2.toNat then (RuneError, 1)
        else if b3.toNat < 0x80 ∨ 0xBF < b3.toNat then (RuneError, 1)
        else ((p0 % 0x08) * 0x40000 + (b1.toNat % 0x40) * 0x1000 + (b2.toNat % 0x40) * 0x40
                + b3.toNat % 0x40, 4)
      | _, _ => (RuneError, 1)

/-- The runes of a string, read front to back with `DecodeRune`; `fuel` bounds the number of
runes and `runes` supplies the length of the input, which always suffices. -/
def runesAux : Nat → Bytes → List Nat
  | 0, _ => []
  | _, [] => []
  | fuel + 1, p => (DecodeRune p).1 :: runesAux fuel (p.drop (DecodeRune p).2)

/-- The runes of a Go string. -/
def runes (p : Bytes) : List Nat := runesAux p.length p

/-! ## Regular expressions (package `regexp`, RE2 syntax) -/

/-- Abstract syntax of the regular expressions used by the program. -/
inductive Regex where
  /-- matches nothing -/
  | none : Regex
  /-- the empty string -/
  | empty : Regex
  /-- one rune of a class -/
  | rune (p : Nat → Bool) : Regex
  /-- `$` without flag `m`: the end of the text -/
  | endText : Regex
  /-- `\b`: an ASCII word boundary -/
  | wordBoundary : Regex
  /-- `rs` -/
  | cat (r s : Regex) : Regex
  /-- `r|s` -/
  | alt (r s : Regex) : Regex
  /-- `r*` -/
  | star (r : Regex) : Regex

namespace Regex

/-- The class `\w` of RE2, `[0-9A-Za-z_]`, at a rune that may be absent (start or end of text). -/
def isWord : Option Nat → Bool
  | some c => (0x30 ≤ c && c ≤ 0x39) || (0x41 ≤ c && c ≤ 0x5A) || (0x61 ≤ c && c ≤ 0x7A) || c == 0x5F
  | Option.none => false

/-- Whether `r` matches the empty string at a position whose previous rune is `prev` and whose
next rune is `next` (`none`: start, end of the text). -/
def nullable (prev next : Option Nat) : Regex → Bool
  | none => false
  | empty => true
  | rune _ => false
  | endText => next.isNone
  | wordBoundary => isWord prev != isWord next
  | cat r s => nullable prev next r && nullable prev next s
  | alt r s => nullable prev next r || nullable prev next s
  | star _ => true

/-- Concatenation that drops a branch that cannot match. -/
def mkCat : Regex → Regex → Regex
  | none, _ => none
  | r, s => cat r s

/-- Alternation that drops a branch that cannot match. -/
def mkAlt : Regex → Regex → Regex
  | none, s => s
  | r, none => r
  | r, s => alt r s

/-- Brzozowski derivative: what is left of `r` to match once the rune `c`, which follows the
rune `prev`, has been read. -/
def deriv (prev : Option Nat) (c : Nat) : Regex → Regex
  | none => none
  | empty => none
  | rune p => if p c then empty else none
  | endText => none
  | wordBoundary => none
  | cat r s =>
    mkAlt (mkCat (deriv prev c r) s) (if nullable prev (some c) r then deriv prev c s else none)
  | alt r s => mkAlt (deriv prev c r) (deriv prev c s)
  | star r => mkCat (deriv prev c r) (star r)

/-- Unanchored search: `cur` stands for the matches of `re` begun at earlier positions of the
text; a match is found when one of them can end at the current position. -/
def search (re : Regex) : Regex → Option Nat → List Nat → Bool
  | cur, prev, [] => nullable prev Option.none cur
  | cur, prev, c :: rest =>
    nullable prev (some c) cur || search re (mkAlt (deriv prev c cur) re) (some c) rest

/-- The method `(*Regexp).MatchString`: whether the string contains a match of `re`. -/
def MatchString (re : Regex) (s : Bytes) : Bool :=
  search re re Option.none (runes s)

/-! ### Pattern syntax -/

/-- `r+` -/
def plus (r : Regex) : Regex := cat r (star r)

/-- `r?` -/
def opt (r : Regex) : Regex := alt r empty

/-- Concatenation of a sequence. -/
def seq : List Regex → Regex
  | [] => empty
  | [r] => r
  | r :: rs => cat r (seq rs)

/-- Alternation of a sequence. -/
def alts : List Regex → Regex
  | [] => none
  | [r] => r
  | r :: rs => alt r (alts rs)

/-- The runes a literal rune `c` matches under flag `i`: its orbit under `unicode.SimpleFold`.
For an ASCII letter that is both cases, and `ſ` (U+017F) for `s`, `K` (U+212A) for `k`. -/
def foldEq (c r : Nat) : Bool :=
  r == c
  || (0x61 ≤ c && c ≤ 0x7A && r == c - 0x20)
  || (0x41 ≤ c && c ≤ 0x5A && r == c + 0x20)
  || ((c == 0x73 || c == 0x53) && r == 0x17F)
  || ((c == 0x6B || c == 0x4B) && r == 0x212A)

/-- A literal under flag `i`. -/
def lit (s : String) : Regex := seq (s.data.map fun ch => rune (foldEq ch.toNat))

/-- `\s`: `[\t\n\f\r ]`. -/
def space (r : Nat) : Bool := r == 0x09 || r == 0x0A || r == 0x0C || r == 0x0D || r == 0x20

/-- `\d` and `[0-9]`. -/
def digit (r : Nat) : Bool := 0x30 ≤ r && r ≤ 0x39

/-- `[\s%20]`: white space, `%`, `2` or `0`. -/
def space20 (r : Nat) : Bool := space r || r == 0x25 || r == 0x32 || r == 0x30

/-- `.` without flag `s`: any rune but a newline. -/
def dot (r : Nat) : Bool := r != 0x0A

/-- `[^']`. -/
def notQuote (r : Nat) : Bool := r != 0x27

end Regex

section Patterns

open Regex

/-- The pattern
`(?i)(?:' *or *'?\d*'? *=|union[\s%20]+select|or[\s%20]+[0-9]+[\s%20]*=|select(?:[\s%20]+\*?[\s%20]*|\s*\*\s*)from|select[\s%20]+from|or[\s%20]+1\s*=\s*1|'[\s%20]*or[\s%20]*'|'\s*or\s*'[^']*'\s*=\s*'|--|\+.*=|\bxp_|\bdrop\b|;\s*$)`. -/
def sqlRe : Regex :=
  alts [
    seq [lit "'", star (lit " "), lit "or", star (lit " "), opt (lit "'"), star (rune digit),
         opt (lit "'"), star (lit " "), lit "="],
    seq [lit "union", plus (rune space20), lit "select"],
    seq [lit "or", plus (rune space20), plus (rune digit), star (rune space20), lit "="],
    seq [lit "select",
         alt (seq [plus (rune space20), opt (lit "*"), star (rune space20)])
             (seq [star (rune space), lit "*", star (rune space)]),
         lit "from"],
    seq [lit "select", plus (rune space20), lit "from"],
    seq [lit "or", plus (rune space20), lit "1", star (rune space), lit "=", star (rune space),
         lit "1"],
    seq [lit "'", star (rune space20), lit "or", star (rune space20), lit "'"],
    seq [lit "'", star (rune space), lit "or", star (rune space), lit "'", star (rune notQuote),
         lit "'", star (rune space), lit "=", star (rune space), lit "'"],
    lit "--",
    seq [lit "+", star (rune dot), lit "="],
    seq [wordBoundary, lit "xp_"],
    seq [wordBoundary, lit "drop", wordBoundary],
    seq [lit ";", star (rune space), endText]]

/-- The pattern `(?i)(<script|javascript:|onload=|onerror=|<img|alert\s*\(|prompt\s*\()`. -/
def xssRe : Regex :=
  alts [lit "<script", lit "javascript:", lit "onload=", lit "onerror=", lit "<img",
        seq [lit "alert", star (rune space), lit "("],
        seq [lit "prompt", star (rune space), lit "("]]

/-- The pattern `(?i)(\.\.\/|\.\.\%2f|\/etc\/passwd|\/bin\/bash|cmd\.exe)`. -/
def pathRe : Regex :=
  alts [lit "../", lit "..%2f", lit "/etc/passwd", lit "/bin/bash", lit "cmd.exe"]

/-- The pattern `(?i)(\|\s*cmd|\|\s*bash|\|\s*powershell|;&|;\s*cmd|\$\{IFS\}|system\s*\()`. -/
def cmdRe : Regex :=
  alts [seq [lit "|", star (rune space), lit "cmd"],
        seq [lit "|", star (rune space), lit "bash"],
        seq [lit "|", star (rune space), lit "powershell"],
        lit ";&",
        seq [lit ";", star (rune space), lit "cmd"],
        lit "$\x7bIFS\x7d",
        seq [lit "system", star (rune space), lit "("]]

end Patterns

/-! ## The content inspector -/

/-- A Go `error`, represented by its message (`err.Error()`). -/
abbrev Error := Bytes

/-- The function `checkMaliciousContent` of `src/main.go`: the error of the first pattern, in the
order SQL injection, XSS, path traversal, command injection, that matches `input`; `none` is the
Go `nil`. -/
def checkMaliciousContent (input : Bytes) : Option Error :=
  -- Check for SQL Injection patterns
  if sqlRe.MatchString input then some (str "SQL injection pattern detected")
  -- Check for XSS patterns
  else if xssRe.MatchString input then some (str "XSS pattern detected")
  -- Check for Path Traversal
  else if pathRe.MatchString input then some (str "path traversal pattern detected")
  -- Check for Command Injection
  else if cmdRe.MatchString input then some (str "command injection pattern detected")
  else none

/-! ## Package `encoding/json`: decoding into `interface{}` -/

namespace json

/-- The values `json.Unmarshal` stores in an `interface{}`: `nil`, `bool`, `float64`, `string`,
`[]interface{}` and `map[string]interface{}`. A `float64` is represented by the literal it was
decoded from (the program never looks at a number); a map by its entries in the order in which
`range` visits them. -/
inductive Value where
  | null : Value
  | bool (b : Bool) : Value
  | number (literal : Bytes) : Value
  | string (s : Bytes) : Value
  | array (items : List Value) : Value
  | object (entries : List (Bytes × Value)) : Value

/-- The function `utf8.EncodeRune` on a valid rune. -/
def EncodeRune (r : Nat) : Bytes :=
  if r < 0x80 then [UInt8.ofNat r]
  else if r < 0x800 then [UInt8.ofNat (0xC0 + r / 0x40), UInt8.ofNat (0x80 + r % 0x40)]
  else if r < 0x10000 then
    [UInt8.ofNat (0xE0 + r / 0x1000), UInt8.ofNat (0x80 + r / 0x40 % 0x40),
     UInt8.ofNat (0x80 + r % 0x40)]
  else
    [UInt8.ofNat (0xF0 + r / 0x40000), UInt8.ofNat (0x80 + r / 0x1000 % 0x40),
     UInt8.ofNat (0x80 + r / 0x40 % 0x40), UInt8.ofNat (0x80 + r % 0x40)]

/-- JSON white space: space, `\t`, `\r`, `\n`. -/
def isSpace (c : UInt8) : Bool := c == 0x20 || c == 0x09 || c == 0x0D || c == 0x0A

/-- Drops leading white space. -/
def skipSpace : Bytes → Bytes
  | [] => []
  | c :: rest => if isSpace c then skipSpace rest else c :: rest

/-- The value of a hexadecimal digit. -/
def hexVal (c : UInt8) : Option Nat :=
  if 0x30 ≤ c ∧ c ≤ 0x39 then some (c.toNat - 0x30)
  else if 0x61 ≤ c ∧ c ≤ 0x66 then some (c.toNat - 0x61 + 10)
  else if 0x41 ≤ c ∧ c ≤ 0x46 then some (c.toNat - 0x41 + 10)
  else none

/-- The function `getu4`: the code unit written `\uXXXX` at the front of `s`. -/
def getu4 : Bytes → Option Nat
  | 0x5C :: 0x75 :: a :: b :: c :: d :: _ =>
    match hexVal a, hexVal b, hexVal c, hexVal d with
    | some a, some b, some c, some d => some (((a * 16 + b) * 16 + c) * 16 + d)
    | _, _, _, _ => none
  | _ => none

/-- Scans a string literal after its opening quote: the text between the quotes, escapes not yet
decoded, and the input after the closing quote. A control character, an unknown escape or a
missing closing quote is a syntax error. -/
def scanString : Nat → Bytes → Option (Bytes × Bytes)
  | 0, _ => none
  | _, [] => none
  | fuel + 1, c :: rest =>
    if c = 0x22 then some ([], rest)
    else if c = 0x5C then
      match rest with
      | [] => none
      | e :: rest1 =>
        if e = 0x75 then
          match getu4 (c :: rest) with
          | some _ =>
            (scanString fuel (rest1.drop 4)).map fun p => (c :: e :: rest1.take 4 ++ p.1, p.2)
          | none => none
        else if e = 0x22 ∨ e = 0x5C ∨ e = 0x2F ∨ e = 0x62 ∨ e = 0x66 ∨ e = 0x6E ∨ e = 0x72
            ∨ e = 0x74 then
          (scanString fuel rest1).map fun p => (c :: e :: p.1, p.2)
        else none
    else if c < 0x20 then none
    else (scanString fuel rest).map fun p => (c :: p.1, p.2)

/-- The byte an escape `\e` other than `\u` stands for. -/
def unescape (e : UInt8) : UInt8 :=
  if e = 0x62 then 0x08 else if e = 0x66 then 0x0C else if e = 0x6E then 0x0A
  else if e = 0x72 then 0x0D else if e = 0x74 then 0x09 else e

/-- The function `utf16.DecodeRune`: the rune of a surrogate pair, if it is one. -/
def decodeSurrogates (r1 : Nat) (r2 : Option Nat) : Option Nat :=
  match r2 with
  | some r2 =>
    if 0xD800 ≤ r1 ∧ r1 < 0xDC00 ∧ 0xDC00 ≤ r2 ∧ r2 < 0xE000 then
      some ((r1 - 0xD800) * 0x400 + (r2 - 0xDC00) + 0x10000)
    else none
  | none => none

/-- The function `unquoteBytes` on the text of a scanned literal: escapes are decoded, a lone
surrogate and every byte that is not part of a UTF-8 encoding become U+FFFD. -/
def unquote : Nat → Bytes → Bytes
  | 0, _ => []
  | _, [] => []
  | fuel + 1, c :: rest =>
    if c = 0x5C then
      match rest with
      | [] => []
      | e :: rest1 =>
        if e = 0x75 then
          match getu4 (c :: rest) with
          | none => []
          | some rr =>
            if 0xD800 ≤ rr ∧ rr < 0xE000 then
              match decodeSurrogates rr (getu4 (rest1.drop 4)) with
              | some dec => EncodeRune dec ++ unquote fuel (rest1.drop 10)
              | none => EncodeRune RuneError ++ unquote fuel (rest1.drop 4)
            else EncodeRune rr ++ unquote fuel (rest1.drop 4)
        else unescape e :: unquote fuel rest1
    else if c < 0x80 then c :: unquote fuel rest
    else
      EncodeRune (DecodeRune (c :: rest)).1 ++ unquote fuel ((c :: rest).drop (DecodeRune (c :: rest)).2)

/-- The string a scanned literal denotes. -/
def stringOf (lit : Bytes) : Bytes := unquote lit.length lit

/-- The longest prefix of decimal digits and the rest. -/
def digits : Bytes → Bytes × Bytes
  | [] => ([], [])
  | c :: rest =>
    if 0x30 ≤ c ∧ c ≤ 0x39 then ((digits rest).1.cons c, (digits rest).2) else ([], c :: rest)

/-- The number a sequence of decimal digits denotes. -/
def natOfDigits (ds : Bytes) : Nat := ds.foldl (fun n c => 10 * n + (c.toNat - 0x30)) 0

/-- Whether `strconv.ParseFloat(_, 64)` reports a range error for the number with integer digits
`int`, fraction digits `frac` and exponent `exp`: its magnitude rounds to infinity, which is so
from `2^1024 - 2^970 = (2^54 - 1) * 2^970` on (half an ulp above the largest `float64`). -/
def outOfRange (int frac : Bytes) (exp : Int) : Bool :=
  let e10 := exp - frac.length
  let magnitude : Nat :=
    if 0 ≤ e10 then natOfDigits (int ++ frac) * 10 ^ e10.toNat
    else natOfDigits (int ++ frac) / 10 ^ (-e10).toNat
  2 ^ 54 - 1 ≤ magnitude >>> 970

/-- The integer part of a number, `0|[1-9][0-9]*`. -/
def scanInt : Bytes → Option (Bytes × Bytes)
  | [] => none
  | c :: rest =>
    if c = 0x30 then some ([c], rest)
    else if 0x31 ≤ c ∧ c ≤ 0x39 then some (digits (c :: rest))
    else none

/-- The optional fraction of a number, `(\.[0-9]+)?`: its digits. -/
def scanFrac : Bytes → Option (Bytes × Bytes)
  | 0x2E :: rest => if (digits rest).1 = [] then none else some (digits rest)
  | inp => some ([], inp)

/-- The optional exponent of a number, `([eE][+-]?[0-9]+)?`: its sign and its digits. -/
def scanExp : Bytes → Option ((Bytes × Bytes) × Bytes)
  | [] => some (([], []), [])
  | e :: rest =>
    if e = 0x65 ∨ e = 0x45 then
      let signed : Bytes × Bytes := match rest with
        | s :: rest1 => if s = 0x2B ∨ s = 0x2D then ([s], rest1) else ([], rest)
        | [] => ([], rest)
      if (digits signed.2).1 = [] then none
      else some ((e :: signed.1, (digits signed.2).1), (digits signed.2).2)
    else some (([], []), e :: rest)

/-- Scans a number, `-?(0|[1-9][0-9]*)(\.[0-9]+)?([eE][+-]?[0-9]+)?`: the literal, whether it is
out of the range of `float64`, and the rest of the input. -/
def scanNumber (inp : Bytes) : Option ((Bytes × Bool) × Bytes) :=
  let signed : Bytes × Bytes := match inp with
    | 0x2D :: rest => ([0x2D], rest)
    | _ => ([], inp)
  match scanInt signed.2 with
  | none => none
  | some (int, inp1) =>
    match scanFrac inp1 with
    | none => none
    | some (frac, inp2) =>
      match scanExp inp2 with
      | none => none
      | some ((e, ds), inp3) =>
        let exp : Int := if e.getLast? = some 0x2D then -(natOfDigits ds : Int) else natOfDigits ds
        some ((signed.1 ++ int ++ (if frac = [] then [] else 0x2E :: frac) ++ e ++ ds,
               outOfRange int frac exp), inp3)

/-- The nesting depth `maxNestingDepth` beyond which the scanner gives up. -/
def maxNestingDepth : Nat := 10000

/-- The entries of a Go map after the entry `(k, v)` is stored: an earlier entry of the same key
is replaced. -/
def store (m : List (Bytes × Value)) (k : Bytes) (v : Value) : List (Bytes × Value) :=
  m.filter (fun e => e.1 != k) ++ [(k, v)]

mutual

/-- Decodes one JSON value at the front of the input (white space already skipped) at nesting
depth `depth`: the value, whether a number in it was out of range, the rest of the input.
`none` is a syntax error. `fuel` bounds the number of calls; each consumes a byte of input. -/
def value : Nat → Nat → Bytes → Option (Value × Bool × Bytes)
  | 0, _, _ => none
  | _, _, [] => none
  | fuel + 1, depth, c :: rest =>
    if c = 0x7B then
      if maxNestingDepth ≤ depth then none
      else
        match skipSpace rest with
        | 0x7D :: rest1 => some (Value.object [], false, rest1)
        | rest1 =>
          match members fuel (depth + 1) rest1 with
          | some (es, bad, rest2) => some (Value.object (es.foldl (fun m e => store m e.1 e.2) []), bad, rest2)
          | none => none
    else if c = 0x5B then
      if maxNestingDepth ≤ depth then none
      else
        match skipSpace rest with
        | 0x5D :: rest1 => some (Value.array [], false, rest1)
        | rest1 =>
          match elements fuel (depth + 1) rest1 with
          | some (vs, bad, rest2) => some (Value.array vs, bad, rest2)
          | none => none
    else if c = 0x22 then
      match scanString rest.length rest with
      | some (lit, rest1) => some (Value.string (stringOf lit), false, rest1)
      | none => none
    else if (str "true").isPrefixOf (c :: rest) then some (Value.bool true, false, rest.drop 3)
    else if (str "false").isPrefixOf (c :: rest) then some (Value.bool false, false, rest.drop 4)
    else if (str "null").isPrefixOf (c :: rest) then some (Value.null, false, rest.drop 3)
    else
      match scanNumber (c :: rest) with
      | some ((lit, bad), rest1) => some (Value.number lit, bad, rest1)
      | none => none

/-- Decodes the elements of an array up to its closing bracket; the input starts at an
element. -/
def elements : Nat → Nat → Bytes → Option (List Value × Bool × Bytes)
  | 0, _, _ => none
  | fuel + 1, depth, inp =>
    match value fuel depth inp with
    | none => none
    | some (v, bad, rest) =>
      match skipSpace rest with
      | 0x2C :: rest1 =>
        match elements fuel depth (skipSpace rest1) with
        | some (vs, bad1, rest2) => some (v :: vs, bad || bad1, rest2)
        | none => none
      | 0x5D :: rest1 => some ([v], bad, rest1)
      | _ => none

/-- Decodes the members of an object up to its closing brace, in the order of the text; the
input starts at a key. -/
def members : Nat → Nat → Bytes → Option (List (Bytes × Value) × Bool × Bytes)
  | 0, _, _ => none
  | fuel + 1, depth, inp =>
    match inp with
    | 0x22 :: rest =>
      match scanString rest.length rest with
      | none => none
      | some (key, rest1) =>
        match skipSpace rest1 with
        | 0x3A :: rest2 =>
          match value fuel depth (skipSpace rest2) with
          | none => none
          | some (v, bad, rest3) =>
            match skipSpace rest3 with
            | 0x2C :: rest4 =>
              match members fuel depth (skipSpace rest4) with
              | some (es, bad1, rest5) => some ((stringOf key, v) :: es, bad || bad1, rest5)
              | none => none
            | 0x7D :: rest4 => some ([(stringOf key, v)], bad, rest4)
            | _ => none
        | _ => none
    | _ => none

end

/-- The function `json.Unmarshal(data, &v)` for `v` an `interface{}`: the value stored when the
call returns `nil`, and `none` when it returns an error. The data must be one JSON value between
optional white space, and no number in it may be out of the range of `float64`. -/
def Decode (data : Bytes) : Option Value :=
  match value (2 * data.length + 2) 0 (skipSpace data) with
  | some (v, bad, rest) => if skipSpace rest = [] ∧ bad = false then some v else none
  | none => none

/-- The function `json.Unmarshal(data, &v)` for `v` of type `map[string]interface{}` holding
`nil`, as `checkSQLInjection` declares `jsonBody`: the map stored in `v` when the call returns
`nil`, and `none` when it returns an error. A top-level object decodes to its map and the literal
`null` leaves `v` the `nil` map, which has no entries; any other top-level value is an
`UnmarshalTypeError`. -/
def Unmarshal (data : Bytes) : Option (List (Bytes × Value)) :=
  match Decode data with
  | some (Value.object entries) => some entries
  | some Value.null => some []
  | _ => none

end json

/-! ## Requests -/

/-- The function `strings.Contains`. -/
def Contains : Bytes → Bytes → Bool
  | [], substr => substr.isEmpty
  | c :: rest, substr => substr.isPrefixOf (c :: rest) || Contains rest substr

/-- The state of a request body, an `io.ReadCloser`: either the body of the incoming connection,
with what is still unread of it and whether it was closed, or an
`io.NopCloser(bytes.NewReader(b))`, with what is still unread of `b`. -/
inductive Body where
  | conn (unread : Bytes) (closed : Bool) : Body
  | reader (unread : Bytes) : Body
deriving DecidableEq

namespace Body

/-- The function `io.ReadAll`: the bytes read and the state of the body afterwards. A body of the
connection that was closed yields an error and no data. -/
def ReadAll : Body → Bytes × Body
  | conn unread false => (unread, conn [] false)
  | conn unread true => ([], conn unread true)
  | reader unread => (unread, reader [])

/-- The method `Close`; it does nothing on a `NopCloser`. -/
def Close : Body → Body
  | conn unread _ => conn unread true
  | reader unread => reader unread

end Body

/-- A form, `url.Values`: the fields with their values, in the order in which `range` visits
them. -/
abbrev Values := List (Bytes × List Bytes)

/-- What a call of the method `r.ParseForm()` of `net/http` does: whether it returns an error,
the form it stores in `r.Form`, and the state in which it leaves `r.Body`. -/
structure ParseFormResult where
  err : Bool
  Form : Values
  Body : Body

/-- An `*http.Request`, with the fields the program uses. The method `ParseForm` belongs to
`net/http`, whose source is not part of the program: it is a field of the model, a function of
the state of `r.Body` at the call, and every theorem holds whatever that function is. -/
structure Request where
  Method : Bytes
  /-- the field `r.URL.RawQuery` -/
  RawQuery : Bytes
  /-- the header `r.Header.Get("Content-Type")` -/
  ContentType : Bytes
  RemoteAddr : Bytes
  Body : Body
  Form : Values
  ParseForm : TinyWaf.Body → ParseFormResult

/-- The function `fmt.Errorf(format, err)` for a format that ends in `: %v`. -/
def Errorf (pre : Bytes) (err : Error) : Error := pre ++ err

/-! ## The request inspector -/

mutual

/-- The closure `checkJSON` of `checkSQLInjection`: the error of the first string that
`checkMaliciousContent` rejects among `v` itself, the values of its entries when it is a map and
its items when it is a slice; `nil` for any other value. -/
def checkJSON : json.Value → Option Error
  | json.Value.string val => checkMaliciousContent val
  | json.Value.object val => checkJSONValues val
  | json.Value.array val => checkJSONItems val
  | _ => none

/-- The loop `for _, value := range val` of `checkJSON` over a map. -/
def checkJSONValues : List (Bytes × json.Value) → Option Error
  | [] => none
  | (_, value) :: rest =>
    match checkJSON value with
    | some err => some err
    | none => checkJSONValues rest

/-- The loop `for _, item := range val` of `checkJSON` over a slice. -/
def checkJSONItems : List json.Value → Option Error
  | [] => none
  | item :: rest =>
    match checkJSON item with
    | some err => some err
    | none => checkJSONItems rest

end

/-- The loop `for _, value := range values` over the values of one form field. -/
def checkFormValues (field : Bytes) : List Bytes → Option Error
  | [] => none
  | value :: rest =>
    match checkMaliciousContent value with
    | some err => some (Errorf (str "malicious content detected in form field " ++ field ++ str ": ") err)
    | none => checkFormValues field rest

/-- The loop `for field, values := range r.Form`. -/
def checkForm : Values → Option Error
  | [] => none
  | (field, values) :: rest =>
    match checkFormValues field values with
    | some err => some err
    | none => checkForm rest

/-- The method `WafProxy.checkSQLInjection` of `src/main.go`: the error returned (`none` is
`nil`) and the request as the call leaves it. Log output is not modelled, so the argument `ip`
is dropped. -/
def checkSQLInjection (r : Request) : Option Error × Request :=
  -- Check URL query parameters
  match checkMaliciousContent r.RawQuery with
  | some err => (some (Errorf (str "malicious content detected in query: ") err), r)
  | none =>
    -- Check POST body
    if r.Method = str "POST" then
      let body := r.Body.ReadAll.1
      let r := { r with Body := r.Body.ReadAll.2.Close }
      -- Check raw body for malicious content
      match checkMaliciousContent body with
      | some err => (some (Errorf (str "malicious content detected in body: ") err), r)
      | none =>
        let contentType := r.ContentType
        -- Handle form-encoded data
        let form : Option Error × Request :=
          if Contains contentType (str "application/x-www-form-urlencoded") then
            -- Create a copy of the body for parsing
            let bodyBytes := body
            let r := { r with Body := Body.reader bodyBytes }
            -- Parse the form data
            let res := r.ParseForm r.Body
            let r := { r with Form := res.Form, Body := res.Body }
            match (if res.err then none else checkForm r.Form) with
            | some err => (some err, r)
            | none =>
              -- Reset the body to the original content
              (none, { r with Body := Body.reader body })
          else (none, r)
        match form with
        | (some err, r) => (some err, r)
        | (none, r) =>
          -- Handle JSON data
          let jsonErr : Option Error :=
            if Contains contentType (str "application/json") then
              match json.Unmarshal body with
              | some jsonBody =>
                -- Recursively check all string values in JSON
                (checkJSON (json.Value.object jsonBody)).map
                  (Errorf (str "malicious content detected in JSON: "))
              | none => none
            else none
          match jsonErr with
          | some err => (some err, r)
          | none =>
            -- Recreate body for upstream
            (none, { r with Body := Body.reader body })
    else (none, r)

/-! ## The rate limiter -/

/-- The type `bucket`. A `float64` is modelled by the rational it denotes (the token count is
always finite), a `time.Time` by the reading of the monotonic clock it carries, in
nanoseconds. -/
structure bucket where
  tokens : ℚ
  last : Int

/-- The variable `rl`, a `map[string]*bucket`. -/
abbrev Buckets := Bytes → Option bucket

/-- The readings of the clock that one call of `allow` takes, in program order: `tNew` by the
`time.Now()` that stamps a new bucket (taken only when the client has none), `tSince` by
`time.Since(b.last)` and `tLast` by the `time.Now()` assigned to `b.last`. -/
structure Clock where
  tNew : Int
  tSince : Int
  tLast : Int

/-- The method `Duration.Seconds`, `float64(sec) + float64(nsec)/1e9` with `sec = d / Second` and
`nsec = d % Second`, for a duration of `d` nanoseconds. The function `fl` rounds a rational to
the `float64` that a conversion or an operation yields: it is `roundFloat64` for the arithmetic
of Go, and the identity for exact arithmetic. -/
def Seconds (fl : ℚ → ℚ) (d : Int) : ℚ :=
  fl (fl ((d.tdiv 1000000000 : Int) : ℚ) + fl (fl ((d.tmod 1000000000 : Int) : ℚ) / 1000000000))

/-- The function `allow` of `src/main.go`, run under the lock `rlMu`: the result and the map
afterwards. `fl` is the rounding of `float64` arithmetic (see `Seconds`), `clk` the readings of
the clock. -/
def allow (fl : ℚ → ℚ) (rl : Buckets) (ip : Bytes) (clk : Clock) : Bool × Buckets :=
  let b : bucket :=
    match rl ip with
    | some b => b
    | none => { tokens := 10, last := clk.tNew }
  let elapsed := Seconds fl (clk.tSince - b.last)
  let tokens := fl (b.tokens + fl (elapsed * 1)) -- 1 token/s refill
  let tokens := if tokens > 10 then 10 else tokens
  let last := clk.tLast
  if tokens ≥ 1 then (true, Function.update rl ip (some { tokens := fl (tokens - 1), last := last }))
  else (false, Function.update rl ip (some { tokens := tokens, last := last }))

/-! ## The handler -/

/-- The index of the first byte `c` of `s`. -/
def IndexByte (s : Bytes) (c : UInt8) : Option Nat :=
  if s.contains c then some (s.indexOf c) else none

/-- The index of the last byte `c` of `s`. -/
def LastIndexByte (s : Bytes) (c : UInt8) : Option Nat :=
  (IndexByte s.reverse c).map fun i => s.length - 1 - i

/-- The function `net.SplitHostPort`: host and port of `host:port` or `[host]:port`; `none` when
it returns an error. -/
def SplitHostPort (hostport : Bytes) : Option (Bytes × Bytes) :=
  -- The port starts after the last colon.
  match LastIndexByte hostport 0x3A with
  | none => none
  | some i =>
    let parts : Option (Bytes × Nat × Nat) :=
      if hostport.head? = some 0x5B then
        -- Expect the first ']' just before the last ':'.
        match IndexByte hostport 0x5D with
        | none => none
        | some e => if e + 1 = i then some ((hostport.take e).drop 1, 1, e + 1) else none
      else if (IndexByte (hostport.take i) 0x3A).isSome then none
      else some (hostport.take i, 0, 0)
    match parts with
    | none => none
    | some (host, j, k) =>
      if (IndexByte (hostport.drop j) 0x5B).isSome then none
      else if (IndexByte (hostport.drop k) 0x5D).isSome then none
      else some (host, hostport.drop (i + 1))

/-- The host that `ip, _, _ := net.SplitHostPort(addr)` assigns to `ip`: the empty string when
the call returns an error. -/
def hostOf (addr : Bytes) : Bytes :=
  match SplitHostPort addr with
  | some (host, _) => host
  | none => []

/-- What `ServeHTTP` does with a request: it answers with `http.Error(w, msg, code)` or hands
the request to the reverse proxy, `wp.proxy.ServeHTTP(w, r)`, which relays it upstream. -/
inductive Response where
  | Error (msg : Bytes) (code : Nat) : Response
  | proxy (r : Request) : Response

/-- The method `WafProxy.ServeHTTP` of `src/main.go`: the response and the rate limiter's map
afterwards. -/
def ServeHTTP (fl : ℚ → ℚ) (rl : Buckets) (clk : Clock) (r : Request) : Response × Buckets :=
  let ip := hostOf r.RemoteAddr
  -- Check rate limit
  match allow fl rl ip clk with
  | (false, rl) => (Response.Error (str "Too many requests") 429, rl)
  | (true, rl) =>
    -- Check for SQL injection
    match checkSQLInjection r with
    | (some _, _) => (Response.Error (str "Forbidden") 403, rl)
    -- Forward the request
    | (none, r) => (Response.proxy r, rl)


/-! ## Notions the statements use -/

namespace json

mutual

/-- The string leaves of a decoded value: the value itself when it is a string, the string leaves
of the values of its entries when it is an object, and of its elements when it is an array. Keys,
numbers, booleans and `null` contribute none. -/
def Value.strings : Value → List Bytes
  | Value.string s => [s]
  | Value.object entries => stringsOfEntries entries
  | Value.array items => stringsOfItems items
  | _ => []

/-- The string leaves below the entries of an object. -/
def stringsOfEntries : List (Bytes × Value) → List Bytes
  | [] => []
  | (_, v) :: rest => v.strings ++ stringsOfEntries rest

/-- The string leaves below the elements of an array. -/
def stringsOfItems : List Value → List Bytes
  | [] => []
  | v :: rest => v.strings ++ stringsOfItems rest

end

end json

/-- The bucket of a client as one call of `allow` finds it: the client's entry of the map, or a
new bucket stamped with the reading `tNew`. -/
def bucketOf (rl : Buckets) (ip : Bytes) (clk : Clock) : bucket :=
  match rl ip with
  | some b => b
  | none => { tokens := 10, last := clk.tNew }

/-- The token count of a bucket after the refill of a call that reads `tSince`:
`min(10, tokens + elapsed)` in `float64` arithmetic. -/
def refill (fl : ℚ → ℚ) (b : bucket) (tSince : Int) : ℚ :=
  min 10 (fl (b.tokens + fl (Seconds fl (tSince - b.last) * 1)))

/-- A sequence of calls `allow(ip)`, one for each element of `clks`: the results and the map
after the last call. -/
def allowSeq (fl : ℚ → ℚ) (rl : Buckets) (ip : Bytes) : List Clock → List Bool × Buckets
  | [] => ([], rl)
  | clk :: rest =>
    ((allow fl rl ip clk).1 :: (allowSeq fl (allow fl rl ip clk).2 ip rest).1,
     (allowSeq fl (allow fl rl ip clk).2 ip rest).2)

/-- The readings of a sequence of calls are in the order of a monotonic clock that last read
`t`: each call reads `tSince` no earlier than `t`, the `tLast` of the call before, and `tLast` no
earlier than `tSince`. -/
def chronological : Int → List Clock → Bool
  | _, [] => true
  | t, clk :: rest => decide (t ≤ clk.tSince) && decide (clk.tSince ≤ clk.tLast)
      && chronological clk.tLast rest

/-- The time, in nanoseconds, that passes between the calls of a sequence: from the reading `t`
to the first call's `tSince`, and from each call's `tLast` to the next call's `tSince`. -/
def gaps : Int → List Clock → Int
  | _, [] => 0
  | t, clk :: rest => (clk.tSince - t) + gaps clk.tLast rest

/-- Rounding to the nearest integer, a tie going to the even one. -/
def roundEven (x : ℚ) : ℤ := if ⌊x⌋ % 2 = 0 then ⌈x - 1 / 2⌉ else ⌊x + 1 / 2⌋

/-- The spacing of the `float64`s around `x > 0`: `2^(e - 52)` for `2^e ≤ x < 2^(e+1)`, and
`2^-1074` below `2^-1022`. -/
def ulp (x : ℚ) : ℚ := 2 ^ (max (Int.log 2 x) (-1022) - 52)

/-- Rounding of `x ≥ 0` to the nearest multiple of the spacing around it. -/
def roundMagnitude (x : ℚ) : ℚ := roundEven (x / ulp x) * ulp x

/-- Rounding to the nearest `float64`, ties to even: the rounding of IEEE 754 binary64
arithmetic, which is that of Go, for arguments that do not overflow (of magnitude below
`2^1024 - 2^970`). -/
def roundFloat64 (x : ℚ) : ℚ := if 0 ≤ x then roundMagnitude x else -roundMagnitude (-x)

/-- What the theorems on the rate limiter use of the rounding `fl` of `float64` arithmetic: it is
monotone, exact on the integers up to `2^53`, and within `2^-50` of its argument on `[0, 16]`,
where neighbouring `float64`s are at most `2^-49` apart. Both `roundFloat64` and exact
arithmetic, `fl = id`, have these properties. -/
structure RoundsToNearest (fl : ℚ → ℚ) : Prop where
  mono : ∀ x y : ℚ, x ≤ y → fl x ≤ fl y
  exact : ∀ n : ℕ, n ≤ 2 ^ 53 → fl n = n
  near : ∀ x : ℚ, 0 ≤ x → x ≤ 16 → |fl x - x| ≤ 1 / 2 ^ 50

/-! ## Example requests and schedules -/

/-- What `ParseForm` does on a request whose content type names no form and whose query is
empty: it returns `nil`, stores an empty form and leaves the body alone. -/
def parseNothing (body : Body) : ParseFormResult := { err := false, Form := [], Body := body }

/-- A POST request from `RemoteAddr` 10.0.0.1:40000 with an empty query. -/
def post (contentType body : Bytes) (parseForm : Body → ParseFormResult) : Request :=
  { Method := str "POST", RawQuery := [], ContentType := contentType,
    RemoteAddr := str "10.0.0.1:40000", Body := Body.conn body false, Form := [],
    ParseForm := parseForm }

/-- A login form: `POST` of `username=alice&password=secret`, which `ParseForm` reads to the end
and decodes into two fields. -/
def loginForm : Request :=
  post (str "application/x-www-form-urlencoded") (str "username=alice&password=secret")
    fun _ => { err := false,
               Form := [(str "username", [str "alice"]), (str "password", [str "secret"])],
               Body := Body.reader [] }

/-- A POST of the text `' OR '1'='1` as `text/plain`. -/
def tautologyAsText : Request := post (str "text/plain") (str "' OR '1'='1") parseNothing

/-- A POST of the text `; cat /etc/passwd` as `text/plain`. -/
def catPasswdAsText : Request := post (str "text/plain") (str "; cat /etc/passwd") parseNothing

/-- A POST of the JSON array `["a;"]` as `application/json`. -/
def arrayOfStatement : Request := post (str "application/json") (str "[\"a;\"]") parseNothing

/-- A POST of the JSON object `{"q": "a;"}` as `application/json`. -/
def objectOfStatement : Request :=
  post (str "application/json") (str "\x7b\"q\": \"a;\"\x7d") parseNothing

/-- A POST of the JSON object `{"a": "x;", "a": 1}`, which names the key `a` twice, as
`application/json`. -/
def repeatedKey : Request :=
  post (str "application/json") (str "\x7b\"a\": \"x;\", \"a\": 1\x7d") parseNothing

/-- A POST of the JSON object `{"q": "a;", "n": 1e400}`, which holds a number beyond the range of
`float64`, as `application/json`. -/
def numberOutOfRange : Request :=
  post (str "application/json") (str "\x7b\"q\": \"a;\", \"n\": 1e400\x7d") parseNothing

/-- A POST of the truncated JSON text `{"a": ` as `application/json`. -/
def truncatedJSON : Request := post (str "application/json") (str "\x7b\"a\": ") parseNothing

/-- The JSON text `{"a": ["safe", {"b": "<script>"}]}`. -/
def nestedScript : Bytes := str "\x7b\"a\": [\"safe\", \x7b\"b\": \"<script>\"\x7d]\x7d"

/-- The map that `nestedScript` decodes to. -/
def nestedScriptMap : List (Bytes × json.Value) :=
  [(str "a", json.Value.array [json.Value.string (str "safe"),
      json.Value.object [(str "b", json.Value.string (str "<script>"))]])]

/-- The JSON text `{"a": 123, "b": true}`. -/
def numberAndBool : Bytes := str "\x7b\"a\": 123, \"b\": true\x7d"

/-- The map that `numberAndBool` decodes to. -/
def numberAndBoolMap : List (Bytes × json.Value) :=
  [(str "a", json.Value.number (str "123")), (str "b", json.Value.bool true)]

/-- The readings of a client's first call: the bucket is stamped at 0 ns, the elapsed time read
at 40 ns and `b.last` set at 90 ns. -/
def firstCall : Clock := { tNew := 0, tSince := 40, tLast := 90 }

/-- The readings of `n` further calls, one every 50 ms; each sets `b.last` 60 ns after it read
the elapsed time. -/
def every50ms (n : Nat) : List Clock :=
  (List.range n).map fun i =>
    { tNew := 0, tSince := 50000000 * ((i : Int) + 1), tLast := 50000000 * ((i : Int) + 1) + 60 }

/-- The readings of a call that takes no time: all three are `t`. -/
def instant (t : Int) : Clock := { tNew := t, tSince := t, tLast := t }

/-- The readings of `n` calls `d` nanoseconds apart, the first `d` after `t`, and of 8 more calls
at the instant of the last of them. -/
def steadyThenBurst (d : Int) : Nat → Int → List Clock
  | 0, t => List.replicate 8 (instant t)
  | n + 1, t => instant (t + d) :: steadyThenBurst d n (t + d)

/-! ## The content inspector: first match wins -/

/-- Claim C4. For every fragment `s`, `checkMaliciousContent` reports the first matching category
in the order SQL injection, XSS, path traversal, command injection: SQL injection iff `sqlRe`
matches `s`; XSS iff `sqlRe` does not match and `xssRe` does; path traversal iff neither `sqlRe`
nor `xssRe` matches and `pathRe` does; command injection iff only `cmdRe` matches; and it
returns `nil` iff none of the four patterns matches. -/
theorem checkMaliciousContent_first_match (s : Bytes) :
    (checkMaliciousContent s = some (str "SQL injection pattern detected")
        ↔ sqlRe.MatchString s = true)
    ∧ (checkMaliciousContent s = some (str "XSS pattern detected")
        ↔ sqlRe.MatchString s = false ∧ xssRe.MatchString s = true)
    ∧ (checkMaliciousContent s = some (str "path traversal pattern detected")
        ↔ sqlRe.MatchString s = false ∧ xssRe.MatchString s = false
          ∧ pathRe.MatchString s = true)
    ∧ (checkMaliciousContent s = some (str "command injection pattern detected")
        ↔ sqlRe.MatchString s = false ∧ xssRe.MatchString s = false
          ∧ pathRe.MatchString s = false ∧ cmdRe.MatchString s = true)
    ∧ (checkMaliciousContent s = none
        ↔ sqlRe.MatchString s = false ∧ xssRe.MatchString s = false
          ∧ pathRe.MatchString s = false ∧ cmdRe.MatchString s = false) := by
  unfold checkMaliciousContent
  cases sqlRe.MatchString s <;> cases xssRe.MatchString s <;> cases pathRe.MatchString s <;>
    cases cmdRe.MatchString s <;> simp <;> decide

/-! ## The traversal of decoded JSON and of forms -/

mutual

/-- The check of a decoded value passes iff every string leaf of the value passes. -/
theorem checkJSON_eq_none_iff : ∀ v : json.Value,
    checkJSON v = none ↔ ∀ s ∈ v.strings, checkMaliciousContent s = none
  | json.Value.null => by simp [checkJSON, json.Value.strings]
  | json.Value.bool _ => by simp [checkJSON, json.Value.strings]
  | json.Value.number _ => by simp [checkJSON, json.Value.strings]
  | json.Value.string s => by simp [checkJSON, json.Value.strings]
  | json.Value.array items => by
    simpa [checkJSON, json.Value.strings] using checkJSONItems_eq_none_iff items
  | json.Value.object entries => by
    simpa [checkJSON, json.Value.strings] using checkJSONValues_eq_none_iff entries

/-- The loop over the entries of a map passes iff every string leaf below them passes. -/
theorem checkJSONValues_eq_none_iff : ∀ entries : List (Bytes × json.Value),
    checkJSONValues entries = none
      ↔ ∀ s ∈ json.stringsOfEntries entries, checkMaliciousContent s = none
  | [] => by simp [checkJSONValues, json.stringsOfEntries]
  | (k, v) :: rest => by
    have h1 := checkJSON_eq_none_iff v
    have h2 := checkJSONValues_eq_none_iff rest
    cases h : checkJSON v with
    | none =>
      simp only [checkJSONValues, h, json.stringsOfEntries, List.mem_append]
      rw [h2]
      rw [h] at h1
      constructor
      · intro hr s hs
        rcases hs with hs | hs
        · exact h1.1 rfl s hs
        · exact hr s hs
      · intro hr s hs
        exact hr s (Or.inr hs)
    | some e =>
      simp only [checkJSONValues, h, json.stringsOfEntries, List.mem_append]
      rw [h] at h1
      constructor
      · intro hc; cases hc
      · intro hr
        have := h1.2 (fun s hs => hr s (Or.inl hs))
        cases this

/-- The loop over the items of a slice passes iff every string leaf below them passes. -/
theorem checkJSONItems_eq_none_iff : ∀ items : List json.Value,
    checkJSONItems items = none
      ↔ ∀ s ∈ json.stringsOfItems items, checkMaliciousContent s = none
  | [] => by simp [checkJSONItems, json.stringsOfItems]
  | v :: rest => by
    have h1 := checkJSON_eq_none_iff v
    have h2 := checkJSONItems_eq_none_iff rest
    cases h : checkJSON v with
    | none =>
      simp only [checkJSONItems, h, json.stringsOfItems, List.mem_append]
      rw [h2]
      rw [h] at h1
      constructor
      · intro hr s hs
        rcases hs with hs | hs
        · exact h1.1 rfl s hs
        · exact hr s hs
      · intro hr s hs
        exact hr s (Or.inr hs)
    | some e =>
      simp only [checkJSONItems, h, json.stringsOfItems, List.mem_append]
      rw [h] at h1
      constructor
      · intro hc; cases hc
      · intro hr
        have := h1.2 (fun s hs => hr s (Or.inl hs))
        cases this

end

/-- The keys of a map play no part in its check. -/
theorem checkJSONValues_rename (rename : Bytes → Bytes) (entries : List (Bytes × json.Value)) :
    checkJSONValues (entries.map fun e => (rename e.1, e.2)) = checkJSONValues entries := by
  induction entries with
  | nil => rfl
  | cons e rest ih =>
    simp only [List.map_cons, checkJSONValues]
    cases checkJSON e.2 with
    | none => exact ih
    | some _ => rfl

/-- A match in the query is reported at once; the request is left as it came. -/
theorem checkSQLInjection_query {r : Request} {err : Error}
    (h : checkMaliciousContent r.RawQuery = some err) :
    checkSQLInjection r = (some (Errorf (str "malicious content detected in query: ") err), r) := by
  unfold checkSQLInjection
  simp [h]

/-- A match in the raw body of a POST is reported right after the body was read and closed. -/
theorem checkSQLInjection_body {r : Request} {err : Error}
    (hq : checkMaliciousContent r.RawQuery = none) (hPost : r.Method = str "POST")
    (h : checkMaliciousContent r.Body.ReadAll.1 = some err) :
    checkSQLInjection r = (some (Errorf (str "malicious content detected in body: ") err),
      { r with Body := r.Body.ReadAll.2.Close }) := by
  unfold checkSQLInjection
  simp [h, hq, hPost]

/-- When `checkSQLInjection` returns `nil`: the query passes and, for a POST, so do the raw body,
the values of the form when the content type names a form and `ParseForm` succeeds, and the
decoded JSON when the content type names JSON and `Unmarshal` succeeds. -/
theorem checkSQLInjection_eq_none_iff (r : Request) :
    (checkSQLInjection r).1 = none ↔
      checkMaliciousContent r.RawQuery = none
      ∧ (r.Method = str "POST" →
          checkMaliciousContent r.Body.ReadAll.1 = none
          ∧ (Contains r.ContentType (str "application/x-www-form-urlencoded") = true →
              (r.ParseForm (Body.reader r.Body.ReadAll.1)).err = false →
              checkForm (r.ParseForm (Body.reader r.Body.ReadAll.1)).Form = none)
          ∧ (Contains r.ContentType (str "application/json") = true →
              ∀ entries, json.Unmarshal r.Body.ReadAll.1 = some entries →
              checkJSON (json.Value.object entries) = none)) := by
  unfold checkSQLInjection
  cases hq : checkMaliciousContent r.RawQuery with
  | some e => simp
  | none =>
    by_cases hPost : r.Method = str "POST"
    · simp only [hPost, if_true, true_and, forall_const]
      cases hb : checkMaliciousContent r.Body.ReadAll.1 with
      | some e => simp
      | none =>
        simp only [true_and]
        by_cases hf : Contains r.ContentType (str "application/x-www-form-urlencoded") = true
        · by_cases hj : Contains r.ContentType (str "application/json") = true
          · cases herr : (r.ParseForm (Body.reader r.Body.ReadAll.1)).err <;>
            cases hform : checkForm (r.ParseForm (Body.reader r.Body.ReadAll.1)).Form <;>
            cases hu : json.Unmarshal r.Body.ReadAll.1 with
            | none => simp [hf, hj, herr, hform, hu]
            | some es =>
              cases hc : checkJSON (json.Value.object es) <;>
                simp [hf, hj, herr, hform, hu, hc]
          · cases herr : (r.ParseForm (Body.reader r.Body.ReadAll.1)).err <;>
            cases hform : checkForm (r.ParseForm (Body.reader r.Body.ReadAll.1)).Form <;>
            simp [hf, hj, herr, hform]
        · by_cases hj : Contains r.ContentType (str "application/json") = true
          · cases hu : json.Unmarshal r.Body.ReadAll.1 with
            | none => simp [hf, hj, hu]
            | some es => cases hc : checkJSON (json.Value.object es) <;> simp [hf, hj, hu, hc]
          · simp [hf, hj]
    · simp [hPost]

/-- A POST that `checkSQLInjection` lets pass leaves it with a new reader over the bytes read. -/
theorem checkSQLInjection_restores {r : Request} {b : Bytes}
    (hPost : r.Method = str "POST") (hBody : r.Body = Body.conn b false)
    (hNil : (checkSQLInjection r).1 = none) :
    (checkSQLInjection r).2.Body = Body.reader b := by
  unfold checkSQLInjection at hNil ⊢
  simp only [hPost, hBody, if_true, Body.ReadAll] at hNil ⊢
  repeat' split at hNil
  all_goals first | (simp at hNil; done) | skip
  all_goals simp_all

/-- What `ServeHTTP` answers once the rate limiter has let the request through. -/
theorem ServeHTTP_of_allowed {fl : ℚ → ℚ} {rl : Buckets} {clk : Clock} {r : Request}
    (hAllow : (allow fl rl (hostOf r.RemoteAddr) clk).1 = true) :
    (ServeHTTP fl rl clk r).1 =
      match (checkSQLInjection r).1 with
      | some _ => Response.Error (str "Forbidden") 403
      | none => Response.proxy (checkSQLInjection r).2 := by
  unfold ServeHTTP
  rcases hres : allow fl rl (hostOf r.RemoteAddr) clk with ⟨ok, rl'⟩
  rw [hres] at hAllow
  simp only at hAllow
  subst hAllow
  rcases hc : checkSQLInjection r with ⟨e, r'⟩
  cases e <;> simp [hres]

/-! ## The rate limiter -/

/-- The function `allow` in one formula: the call is allowed iff the refilled bucket holds a
token, which it then pays. -/
theorem allow_eq (fl : ℚ → ℚ) (rl : Buckets) (ip : Bytes) (clk : Clock) :
    allow fl rl ip clk =
      if 1 ≤ refill fl (bucketOf rl ip clk) clk.tSince then
        (true, Function.update rl ip
          (some { tokens := fl (refill fl (bucketOf rl ip clk) clk.tSince - 1), last := clk.tLast }))
      else
        (false, Function.update rl ip
          (some { tokens := refill fl (bucketOf rl ip clk) clk.tSince, last := clk.tLast })) := by
  unfold allow refill bucketOf
  have hmin : ∀ x : ℚ, (if x > 10 then (10 : ℚ) else x) = min 10 x := by
    intro x
    by_cases h : x > 10
    · rw [if_pos h, min_eq_left (le_of_lt h)]
    · rw [if_neg h, min_eq_right (not_lt.mp h)]
  simp only [hmin, ge_iff_le]

/-- A client with a bucket is served from that bucket. -/
theorem bucketOf_some {rl : Buckets} {ip : Bytes} {b : bucket} (h : rl ip = some b) (clk : Clock) :
    bucketOf rl ip clk = b := by
  simp [bucketOf, h]

/-- The call that finds a token. -/
theorem allow_true {fl : ℚ → ℚ} {rl : Buckets} {ip : Bytes} {clk : Clock}
    (h : 1 ≤ refill fl (bucketOf rl ip clk) clk.tSince) :
    allow fl rl ip clk = (true, Function.update rl ip
      (some { tokens := fl (refill fl (bucketOf rl ip clk) clk.tSince - 1), last := clk.tLast })) := by
  rw [allow_eq, if_pos h]

/-- The call that finds less than a token. -/
theorem allow_false {fl : ℚ → ℚ} {rl : Buckets} {ip : Bytes} {clk : Clock}
    (h : refill fl (bucketOf rl ip clk) clk.tSince < 1) :
    allow fl rl ip clk = (false, Function.update rl ip
      (some { tokens := refill fl (bucketOf rl ip clk) clk.tSince, last := clk.tLast })) := by
  rw [allow_eq, if_neg (not_le.mpr h)]

/-- No time is lost between calls in chronological order. -/
theorem gaps_nonneg :
    ∀ (clks : List Clock) (t : Int), chronological t clks = true → 0 ≤ gaps t clks
  | [], _, _ => by simp [gaps]
  | clk :: rest, t, h => by
    simp only [chronological, Bool.and_eq_true, decide_eq_true_eq] at h
    have := gaps_nonneg rest clk.tLast h.2
    simp only [gaps]
    omega

/-- The first gap of a chronological sequence is part of its gaps. -/
theorem gap_le_gaps {t : Int} {clk : Clock} {rest : List Clock}
    (h : chronological t (clk :: rest) = true) :
    0 ≤ clk.tSince - t ∧ clk.tSince - t ≤ gaps t (clk :: rest)
      ∧ chronological clk.tLast rest = true := by
  simp only [chronological, Bool.and_eq_true, decide_eq_true_eq] at h
  have := gaps_nonneg rest clk.tLast h.2
  simp only [gaps]
  exact ⟨by omega, by omega, h.2⟩

/-- Exact arithmetic rounds to nearest. -/
theorem roundsToNearest_id : RoundsToNearest (fun x : ℚ => x) where
  mono := fun _ _ h => h
  exact := fun _ _ => rfl
  near := fun x _ _ => by simp

/-- In exact arithmetic `Seconds` is the duration divided by `10^9`. -/
theorem Seconds_exact (d : Int) : Seconds (fun x => x) d = (d : ℚ) / 1000000000 := by
  unfold Seconds
  have h := Int.tdiv_add_tmod d 1000000000
  have hq : (1000000000 : ℚ) * ((d.tdiv 1000000000 : Int) : ℚ) + ((d.tmod 1000000000 : Int) : ℚ)
      = (d : ℚ) := by exact_mod_cast h
  field_simp
  linarith

/-- Rounding keeps zero. -/
theorem RoundsToNearest.zero {fl : ℚ → ℚ} (hfl : RoundsToNearest fl) : fl 0 = 0 := by
  have := hfl.exact 0 (by norm_num)
  simpa using this

/-- Rounding keeps the sign. -/
theorem RoundsToNearest.nonneg {fl : ℚ → ℚ} (hfl : RoundsToNearest fl) {x : ℚ} (hx : 0 ≤ x) :
    0 ≤ fl x := by
  have := hfl.mono 0 x hx
  rwa [hfl.zero] at this

/-- Rounding does not cross an integer. -/
theorem RoundsToNearest.ge_nat {fl : ℚ → ℚ} (hfl : RoundsToNearest fl) {x : ℚ} (n : ℕ)
    (hn : n ≤ 2 ^ 53) (hx : (n : ℚ) ≤ x) : (n : ℚ) ≤ fl x := by
  have := hfl.mono n x hx
  rwa [hfl.exact n hn] at this

/-- Rounding adds at most `2^-50` below 16. -/
theorem RoundsToNearest.le_add {fl : ℚ → ℚ} (hfl : RoundsToNearest fl) {x : ℚ} (h0 : 0 ≤ x)
    (h1 : x ≤ 16) : fl x ≤ x + 1 / 2 ^ 50 := by
  have := hfl.near x h0 h1
  rw [abs_le] at this
  linarith [this.2]

/-- The refill `elapsed * 1.0` is never negative. -/
theorem RoundsToNearest.seconds_nonneg {fl : ℚ → ℚ} (hfl : RoundsToNearest fl) {d : Int}
    (hd : 0 ≤ d) : 0 ≤ fl (Seconds fl d * 1) := by
  have h1 : (0 : ℚ) ≤ ((d.tdiv 1000000000 : Int) : ℚ) := by
    exact_mod_cast Int.tdiv_nonneg hd (by norm_num)
  have h2 : (0 : ℚ) ≤ ((d.tmod 1000000000 : Int) : ℚ) := by
    exact_mod_cast Int.tmod_nonneg _ hd
  have h3 := hfl.nonneg h1
  have h4 := hfl.nonneg h2
  have h5 : (0 : ℚ) ≤ fl (fl ((d.tmod 1000000000 : Int) : ℚ) / 1000000000) :=
    hfl.nonneg (div_nonneg h4 (by norm_num))
  have h6 : 0 ≤ Seconds fl d := hfl.nonneg (add_nonneg h3 h5)
  exact hfl.nonneg (by linarith)

/-- The refill for less than ten seconds is at most the time elapsed and three roundings. -/
theorem RoundsToNearest.seconds_le {fl : ℚ → ℚ} (hfl : RoundsToNearest fl) {d : Int}
    (hd : 0 ≤ d) (hd1 : d < 10000000000) :
    fl (Seconds fl d * 1) ≤ (d : ℚ) / 1000000000 + 3 / 2 ^ 50 := by
  have hs0 : 0 ≤ d.tdiv 1000000000 := Int.tdiv_nonneg hd (by norm_num)
  have hm0 : 0 ≤ d.tmod 1000000000 := Int.tmod_nonneg _ hd
  have hm1 : d.tmod 1000000000 < 1000000000 := Int.tmod_lt_of_pos d (by norm_num)
  have hsum := Int.tdiv_add_tmod d 1000000000
  have hs9 : d.tdiv 1000000000 ≤ 9 := by omega
  obtain ⟨s, hs⟩ := Int.eq_ofNat_of_zero_le hs0
  obtain ⟨m, hm⟩ := Int.eq_ofNat_of_zero_le hm0
  rw [hs] at hs9 hsum
  rw [hm] at hm1 hsum
  have hs9' : s ≤ 9 := by exact_mod_cast hs9
  have hm1' : m < 1000000000 := by exact_mod_cast hm1
  have hsq : (s : ℚ) ≤ 9 := by exact_mod_cast hs9'
  have hs0q : (0 : ℚ) ≤ (s : ℚ) := Nat.cast_nonneg s
  have hdq : (d : ℚ) = 1000000000 * (s : ℚ) + (m : ℚ) := by exact_mod_cast hsum.symm
  have hx0 : (0 : ℚ) ≤ (m : ℚ) / 1000000000 := by positivity
  have hx1 : (m : ℚ) / 1000000000 ≤ 1 := by
    rw [div_le_one (by norm_num)]
    exact_mod_cast hm1'.le
  have hexs : fl (s : ℚ) = s := hfl.exact s (by omega)
  have hexm : fl (m : ℚ) = m := hfl.exact m (by omega)
  have a1 := hfl.le_add hx0 (by linarith)
  have a0 := hfl.nonneg hx0
  have hε : (1 : ℚ) / 2 ^ 50 ≤ 1 := by norm_num
  have a2 := hfl.le_add (x := (s : ℚ) + fl ((m : ℚ) / 1000000000)) (by linarith) (by linarith)
  have b0 : 0 ≤ fl ((s : ℚ) + fl ((m : ℚ) / 1000000000)) := hfl.nonneg (by linarith)
  have a3 := hfl.le_add b0 (by linarith)
  unfold Seconds
  simp only [hs, hm, Int.cast_natCast, hexs, hexm, mul_one]
  rw [hdq]
  have e : (1000000000 * (s : ℚ) + (m : ℚ)) / 1000000000 = (s : ℚ) + (m : ℚ) / 1000000000 := by
    field_simp
    ring
  rw [e]
  linarith

/-- The refilled bucket holds at most the tokens found, the time elapsed and four roundings. -/
theorem RoundsToNearest.refill_le {fl : ℚ → ℚ} (hfl : RoundsToNearest fl) {b : bucket}
    {tSince : Int} (h0 : 0 ≤ b.tokens) (hd : 0 ≤ tSince - b.last) :
    refill fl b tSince ≤ b.tokens + ((tSince - b.last : Int) : ℚ) / 1000000000 + 4 / 2 ^ 50 := by
  have hdq : (0 : ℚ) ≤ ((tSince - b.last : Int) : ℚ) := by exact_mod_cast hd
  have hε : (0 : ℚ) < 1 / 2 ^ 50 := by positivity
  by_cases hbig : (10 : ℚ) ≤ b.tokens + ((tSince - b.last : Int) : ℚ) / 1000000000
  · unfold refill
    refine le_trans (min_le_left _ _) ?_
    linarith
  · have hlt := not_le.mp hbig
    have hd1 : tSince - b.last < 10000000000 := by
      by_contra hc
      have hc' : (10000000000 : ℚ) ≤ ((tSince - b.last : Int) : ℚ) := by
        exact_mod_cast not_lt.mp hc
      have : (10 : ℚ) ≤ ((tSince - b.last : Int) : ℚ) / 1000000000 := by
        rw [le_div_iff₀ (by norm_num)]; linarith
      linarith
    have he0 := hfl.seconds_nonneg hd
    have he1 := hfl.seconds_le hd hd1
    have hs := hfl.le_add (x := b.tokens + fl (Seconds fl (tSince - b.last) * 1))
      (by linarith) (by linarith)
    unfold refill
    refine le_trans (min_le_right _ _) ?_
    linarith

/-! ### Rounding to `float64` -/

/-- Rounding to even does not go below the floor. -/
theorem floor_le_roundEven (x : ℚ) : ⌊x⌋ ≤ roundEven x := by
  unfold roundEven
  split
  · rw [Int.le_ceil_iff]
    have := Int.floor_le x
    linarith
  · rw [Int.le_floor]
    have := Int.floor_le x
    linarith

/-- Rounding to even does not go above the next integer. -/
theorem roundEven_le_floor_add_one (x : ℚ) : roundEven x ≤ ⌊x⌋ + 1 := by
  unfold roundEven
  have h := Int.floor_le x
  have h2 := Int.lt_floor_add_one x
  split
  · rw [Int.ceil_le]
    push_cast
    linarith
  · rw [← Int.lt_add_one_iff, Int.floor_lt]
    push_cast
    linarith

/-- Rounding to even leaves an integer alone. -/
theorem roundEven_intCast (k : ℤ) : roundEven (k : ℚ) = k := by
  unfold roundEven
  have h1 : ⌈(k : ℚ) - 1 / 2⌉ = k := by
    rw [Int.ceil_eq_iff]
    constructor <;> norm_num
  have h2 : ⌊(k : ℚ) + 1 / 2⌋ = k := by
    rw [Int.floor_eq_iff]
    constructor <;> norm_num
  split <;> first | exact h1 | exact h2

/-- Rounding to even is monotone. -/
theorem roundEven_mono {x y : ℚ} (h : x ≤ y) : roundEven x ≤ roundEven y := by
  rcases (Int.floor_mono h).lt_or_eq with hlt | heq
  · calc roundEven x ≤ ⌊x⌋ + 1 := roundEven_le_floor_add_one x
      _ ≤ ⌊y⌋ := hlt
      _ ≤ roundEven y := floor_le_roundEven y
  · unfold roundEven
    rw [heq]
    split
    · exact Int.ceil_mono (by linarith)
    · exact Int.floor_mono (by linarith)

/-- Rounding to even moves by at most a half. -/
theorem abs_roundEven_sub_le (x : ℚ) : |(roundEven x : ℚ) - x| ≤ 1 / 2 := by
  unfold roundEven
  rw [abs_le]
  split
  · have h1 := Int.le_ceil (x - 1 / 2)
    have h2 := Int.ceil_lt_add_one (x - 1 / 2)
    constructor <;> linarith
  · have h1 := Int.floor_le (x + 1 / 2)
    have h2 := Int.lt_floor_add_one (x + 1 / 2)
    constructor <;> linarith

/-- The spacing is positive. -/
theorem ulp_pos (x : ℚ) : 0 < ulp x := by
  unfold ulp
  positivity

/-- Rounding keeps a magnitude non-negative. -/
theorem roundMagnitude_nonneg {x : ℚ} (hx : 0 ≤ x) : 0 ≤ roundMagnitude x := by
  unfold roundMagnitude
  have hq := ulp_pos x
  have h0 : (0 : ℤ) ≤ roundEven (x / ulp x) := by
    have := roundEven_mono (div_nonneg hx hq.le)
    rwa [show (0 : ℚ) = ((0 : ℤ) : ℚ) by norm_num, roundEven_intCast] at this
  have : (0 : ℚ) ≤ (roundEven (x / ulp x) : ℚ) := by exact_mod_cast h0
  positivity

/-- A multiple of the spacing around it is a `float64`: rounding leaves it alone. -/
theorem roundMagnitude_of_multiple {x : ℚ} (k : ℤ) (h : x = k * ulp x) : roundMagnitude x = x := by
  unfold roundMagnitude
  have hq := ulp_pos x
  have : x / ulp x = k := by
    rw [div_eq_iff hq.ne']
    exact h
  rw [this, roundEven_intCast]
  exact h.symm

/-- Rounding moves a magnitude by at most half the spacing. -/
theorem abs_roundMagnitude_sub_le (x : ℚ) : |roundMagnitude x - x| ≤ ulp x / 2 := by
  unfold roundMagnitude
  have hq := ulp_pos x
  have h := abs_roundEven_sub_le (x / ulp x)
  have e : (roundEven (x / ulp x) : ℚ) * ulp x - x
      = ((roundEven (x / ulp x) : ℚ) - x / ulp x) * ulp x := by
    field_simp
  rw [e, abs_mul, abs_of_pos hq]
  calc |(roundEven (x / ulp x) : ℚ) - x / ulp x| * ulp x ≤ 1 / 2 * ulp x :=
        mul_le_mul_of_nonneg_right h hq.le
    _ = ulp x / 2 := by ring

/-- The spacing is the power of two of the binade over `2^52`. -/
theorem ulp_eq (x : ℚ) : ulp x = 2 ^ (max (Int.log 2 x) (-1022)) / 2 ^ (52 : ℤ) := by
  unfold ulp
  rw [zpow_sub₀ (by norm_num)]

/-- Rounding does not leave the binade upwards: the result is at most `2^(e+1)`. -/
theorem roundMagnitude_le_binade (x : ℚ) :
    roundMagnitude x ≤ 2 ^ (max (Int.log 2 x) (-1022) + 1) := by
  have hq := ulp_pos x
  have h1 : x < (2 : ℚ) ^ (Int.log 2 x + 1) := by
    have := Int.lt_zpow_succ_log_self (R := ℚ) (b := 2) (by norm_num) x
    simpa using this
  have h2 : (2 : ℚ) ^ (Int.log 2 x + 1) ≤ 2 ^ (max (Int.log 2 x) (-1022) + 1) :=
    zpow_le_zpow_right₀ (by norm_num) (by have := le_max_left (Int.log 2 x) (-1022); omega)
  have h3 : (2 : ℚ) ^ (max (Int.log 2 x) (-1022) + 1) = ((2 ^ 53 : ℤ) : ℚ) * ulp x := by
    rw [ulp_eq, zpow_add₀ (by norm_num)]
    norm_num
    ring
  have h4 : x / ulp x ≤ ((2 ^ 53 : ℤ) : ℚ) := by
    rw [div_le_iff₀ hq, ← h3]
    linarith
  have h5 := roundEven_mono h4
  rw [roundEven_intCast] at h5
  have h6 : (roundEven (x / ulp x) : ℚ) ≤ ((2 ^ 53 : ℤ) : ℚ) := by exact_mod_cast h5
  unfold roundMagnitude
  rw [h3]
  exact mul_le_mul_of_nonneg_right h6 hq.le

/-- Rounding does not leave the binade downwards: the result is at least `2^e`. -/
theorem binade_le_roundMagnitude {x : ℚ} (hx : 0 < x) (hnormal : -1022 ≤ Int.log 2 x) :
    (2 : ℚ) ^ (Int.log 2 x) ≤ roundMagnitude x := by
  have hq := ulp_pos x
  have hmax : max (Int.log 2 x) (-1022) = Int.log 2 x := max_eq_left hnormal
  have h1 : (2 : ℚ) ^ (Int.log 2 x) ≤ x := by
    have := Int.zpow_log_le_self (R := ℚ) (b := 2) (by norm_num) hx
    simpa using this
  have h3 : (2 : ℚ) ^ (Int.log 2 x) = ((2 ^ 52 : ℤ) : ℚ) * ulp x := by
    rw [ulp_eq, hmax]
    norm_num
    ring
  have h4 : ((2 ^ 52 : ℤ) : ℚ) ≤ x / ulp x := by
    rw [le_div_iff₀ hq, ← h3]
    exact h1
  have h5 := roundEven_mono h4
  rw [roundEven_intCast] at h5
  have h6 : ((2 ^ 52 : ℤ) : ℚ) ≤ (roundEven (x / ulp x) : ℚ) := by exact_mod_cast h5
  unfold roundMagnitude
  rw [h3]
  exact mul_le_mul_of_nonneg_right h6 hq.le

/-- Rounding of positive magnitudes is monotone. -/
theorem roundMagnitude_mono {x y : ℚ} (hx : 0 < x) (h : x ≤ y) :
    roundMagnitude x ≤ roundMagnitude y := by
  have hy : 0 < y := lt_of_lt_of_le hx h
  have hlog : Int.log 2 x ≤ Int.log 2 y := Int.log_mono_right hx h
  have hE : max (Int.log 2 x) (-1022) ≤ max (Int.log 2 y) (-1022) := max_le_max hlog le_rfl
  rcases hE.lt_or_eq with hlt | heq
  · have hnormal : -1022 ≤ Int.log 2 y := by
      by_contra hc
      have h1 : max (Int.log 2 y) (-1022) = -1022 := max_eq_right (by omega)
      have h2 := le_max_right (Int.log 2 x) (-1022)
      omega
    have hmax : max (Int.log 2 y) (-1022) = Int.log 2 y := max_eq_left hnormal
    calc roundMagnitude x ≤ 2 ^ (max (Int.log 2 x) (-1022) + 1) := roundMagnitude_le_binade x
      _ ≤ 2 ^ (Int.log 2 y) := zpow_le_zpow_right₀ (by norm_num) (by omega)
      _ ≤ roundMagnitude y := binade_le_roundMagnitude hy hnormal
  · have hq : ulp x = ulp y := by unfold ulp; rw [heq]
    have hqp := ulp_pos y
    unfold roundMagnitude
    rw [hq]
    have h1 : x / ulp y ≤ y / ulp y := div_le_div_of_nonneg_right h hqp.le
    have h2 : (roundEven (x / ulp y) : ℚ) ≤ (roundEven (y / ulp y) : ℚ) := by
      exact_mod_cast roundEven_mono h1
    exact mul_le_mul_of_nonneg_right h2 hqp.le

/-- Zero is a `float64`. -/
theorem roundMagnitude_zero : roundMagnitude 0 = 0 :=
  roundMagnitude_of_multiple 0 (by simp)

/-- Rounding of magnitudes is monotone. -/
theorem roundMagnitude_mono' {x y : ℚ} (hx : 0 ≤ x) (h : x ≤ y) :
    roundMagnitude x ≤ roundMagnitude y := by
  rcases hx.lt_or_eq with hpos | hzero
  · exact roundMagnitude_mono hpos h
  · rw [← hzero, roundMagnitude_zero]
    exact roundMagnitude_nonneg (by linarith)

/-- Rounding to `float64` is monotone. -/
theorem roundFloat64_mono {x y : ℚ} (h : x ≤ y) : roundFloat64 x ≤ roundFloat64 y := by
  unfold roundFloat64
  by_cases hx : 0 ≤ x
  · have hy : 0 ≤ y := le_trans hx h
    rw [if_pos hx, if_pos hy]
    exact roundMagnitude_mono' hx h
  · rw [if_neg hx]
    by_cases hy : 0 ≤ y
    · rw [if_pos hy]
      have h1 := roundMagnitude_nonneg (x := -x) (by linarith)
      have h2 := roundMagnitude_nonneg hy
      linarith
    · rw [if_neg hy]
      have := roundMagnitude_mono' (x := -y) (y := -x) (by linarith) (by linarith)
      linarith

/-- The integers up to `2^53` are `float64`s. -/
theorem roundFloat64_natCast (n : ℕ) (hn : n ≤ 2 ^ 53) : roundFloat64 (n : ℚ) = n := by
  unfold roundFloat64
  rw [if_pos (Nat.cast_nonneg n)]
  rcases Nat.eq_zero_or_pos n with h0 | hpos
  · subst h0
    simpa using roundMagnitude_zero
  · have hlog : Int.log 2 (n : ℚ) = (Nat.log 2 n : ℤ) := Int.log_natCast 2 n
    have he : Nat.log 2 n ≤ 53 := by
      have := Nat.log_mono_right (b := 2) hn
      rwa [Nat.log_pow (by norm_num)] at this
    have hpow : 2 ^ Nat.log 2 n ≤ n := Nat.pow_log_le_self 2 hpos.ne'
    have hmax : max (Int.log 2 (n : ℚ)) (-1022) = (Nat.log 2 n : ℤ) := by
      rw [hlog]; exact max_eq_left (by omega)
    have hulp : ulp (n : ℚ) = 2 ^ (Nat.log 2 n) / 2 ^ 52 := by
      rw [ulp_eq, hmax, zpow_natCast]
      norm_num
    rcases Nat.lt_or_ge (Nat.log 2 n) 53 with hlt | hge
    · -- the spacing is `2^(e-52)` with `e ≤ 52`: `n` is `n * 2^(52-e)` spacings
      apply roundMagnitude_of_multiple ((n * 2 ^ (52 - Nat.log 2 n) : ℕ) : ℤ)
      rw [hulp]
      have h52 : (2 : ℚ) ^ 52 = 2 ^ (52 - Nat.log 2 n) * 2 ^ (Nat.log 2 n) := by
        rw [← pow_add]; congr 1; omega
      have hne : (2 : ℚ) ^ (Nat.log 2 n) ≠ 0 := by positivity
      have hne' : (2 : ℚ) ^ (52 - Nat.log 2 n) ≠ 0 := by positivity
      rw [h52]
      push_cast
      field_simp
      ring
    · -- `n = 2^53`, the spacing is 2
      have he53 : Nat.log 2 n = 53 := le_antisymm he hge
      rw [he53] at hpow hulp
      have hn53 : n = 2 ^ 53 := le_antisymm hn hpow
      apply roundMagnitude_of_multiple (2 ^ 52 : ℤ)
      rw [hulp, hn53]
      norm_num

/-- Below 16 rounding to `float64` moves by at most `2^-50`. -/
theorem roundFloat64_near (x : ℚ) (h0 : 0 ≤ x) (h16 : x ≤ 16) :
    |roundFloat64 x - x| ≤ 1 / 2 ^ 50 := by
  rcases h16.lt_or_eq with hlt | heq
  · rcases h0.lt_or_eq with hpos | hzero
    · unfold roundFloat64
      rw [if_pos h0]
      refine le_trans (abs_roundMagnitude_sub_le x) ?_
      have hlog : Int.log 2 x < 4 := by
        rw [← Int.lt_zpow_iff_log_lt (R := ℚ) (b := 2) (by norm_num) hpos]
        norm_num
        exact hlt
      have hmax : max (Int.log 2 x) (-1022) ≤ 3 := max_le (by omega) (by norm_num)
      have hu : ulp x ≤ 2 ^ ((3 : ℤ) - 52) := by
        unfold ulp
        exact zpow_le_zpow_right₀ (by norm_num) (by omega)
      have e : (2 : ℚ) ^ ((3 : ℤ) - 52) = 2 / 2 ^ 50 := by
        rw [zpow_sub₀ (by norm_num)]
        norm_num
      rw [e] at hu
      linarith
    · rw [← hzero]
      have := roundFloat64_natCast 0 (by norm_num)
      simp only [Nat.cast_zero] at this
      rw [this]
      norm_num
  · rw [heq]
    have := roundFloat64_natCast 16 (by norm_num)
    norm_num at this
    rw [this]
    norm_num

/-- The rounding of `float64` arithmetic has the properties that the theorems on bursts use. -/
theorem roundsToNearest_float64 : RoundsToNearest roundFloat64 where
  mono := fun _ _ h => roundFloat64_mono h
  exact := roundFloat64_natCast
  near := roundFloat64_near

/-- The first call for a client finds a full bucket and is allowed; it leaves 9 tokens. -/
theorem allow_new {fl : ℚ → ℚ} (hfl : RoundsToNearest fl) {rl : Buckets} {ip : Bytes}
    (clk : Clock) (hNew : rl ip = none) (hSince : clk.tNew ≤ clk.tSince) :
    allow fl rl ip clk
      = (true, Function.update rl ip (some { tokens := 9, last := clk.tLast })) := by
  have hb : bucketOf rl ip clk = { tokens := 10, last := clk.tNew } := by simp [bucketOf, hNew]
  have hd0 : 0 ≤ clk.tSince - clk.tNew := by omega
  have he0 := hfl.seconds_nonneg hd0
  have hs : ((10 : ℕ) : ℚ) ≤ fl (10 + fl (Seconds fl (clk.tSince - clk.tNew) * 1)) :=
    hfl.ge_nat 10 (by norm_num) (by push_cast; linarith)
  push_cast at hs
  have hr : refill fl (bucketOf rl ip clk) clk.tSince = 10 := by
    rw [hb]; unfold refill; exact min_eq_left hs
  have h9 : fl ((10 : ℚ) - 1) = 9 := by
    have := hfl.exact 9 (by norm_num)
    norm_num at this ⊢
    exact this
  rw [allow_true (by rw [hr]; norm_num), hr, h9]

/-- A bucket that holds between `n` and `n + a` tokens lets exactly the next `n` calls through,
when the time between the calls and the rounding errors add up to less than `1 - a` tokens. -/
theorem burst {fl : ℚ → ℚ} (hfl : RoundsToNearest fl) (ip : Bytes) :
    ∀ (n : ℕ) (clks : List Clock) (rl : Buckets) (b : bucket) (a : ℚ),
      rl ip = some b → n ≤ 9 → (n : ℚ) ≤ b.tokens → b.tokens ≤ n + a →
      clks.length = n + 1 → chronological b.last clks = true →
      a + (gaps b.last clks : ℚ) / 1000000000 + (5 * n + 4) / 2 ^ 50 < 1 →
      (allowSeq fl rl ip clks).1 = List.replicate n true ++ [false] := by
  intro n
  induction n with
  | zero =>
    intro clks rl b a hb _ hlo hhi hlen hch hsum
    match clks, hlen with
    | [clk], _ =>
      obtain ⟨hd0, _, _⟩ := gap_le_gaps hch
      simp only [gaps, add_zero, Nat.cast_zero, mul_zero, zero_add] at hsum hlo hhi
      have hdq : (0 : ℚ) ≤ ((clk.tSince - b.last : Int) : ℚ) := by exact_mod_cast hd0
      have ha : 0 ≤ a := by linarith
      have hd1 : clk.tSince - b.last < 1000000000 := by
        by_contra hc
        have hc' : (1000000000 : ℚ) ≤ ((clk.tSince - b.last : Int) : ℚ) := by
          exact_mod_cast not_lt.mp hc
        have : (1 : ℚ) ≤ ((clk.tSince - b.last : Int) : ℚ) / 1000000000 := by
          rw [le_div_iff₀ (by norm_num)]; linarith
        have hε : (0 : ℚ) < 4 / 2 ^ 50 := by positivity
        linarith
      have he0 := hfl.seconds_nonneg hd0
      have he1 := hfl.seconds_le hd0 (by omega)
      have hs := hfl.le_add (x := b.tokens + fl (Seconds fl (clk.tSince - b.last) * 1))
        (by linarith) (by linarith)
      have hr : refill fl (bucketOf rl ip clk) clk.tSince < 1 := by
        rw [bucketOf_some hb]
        unfold refill
        refine lt_of_le_of_lt (min_le_right _ _) ?_
        linarith
      simp [allowSeq, allow_false hr]
  | succ n ih =>
    intro clks rl b a hb hn hlo hhi hlen hch hsum
    match clks, hlen with
    | clk :: rest, hlen =>
      obtain ⟨hd0, hdg, hch'⟩ := gap_le_gaps hch
      have hg := gaps_nonneg rest clk.tLast hch'
      have hgq : (0 : ℚ) ≤ (gaps clk.tLast rest : ℚ) := by exact_mod_cast hg
      simp only [gaps, Int.cast_add] at hsum
      push_cast at hlo hhi hsum
      have hnq : (n : ℚ) ≤ 8 := by exact_mod_cast (by omega : n ≤ 8)
      have hn0 : (0 : ℚ) ≤ (n : ℚ) := Nat.cast_nonneg n
      have hdq : (0 : ℚ) ≤ ((clk.tSince - b.last : Int) : ℚ) := by exact_mod_cast hd0
      have ha : 0 ≤ a := by linarith
      have hε : (0 : ℚ) < 1 / 2 ^ 50 := by positivity
      have hd1 : clk.tSince - b.last < 1000000000 := by
        by_contra hc
        have hc' : (1000000000 : ℚ) ≤ ((clk.tSince - b.last : Int) : ℚ) := by
          exact_mod_cast not_lt.mp hc
        have : (1 : ℚ) ≤ ((clk.tSince - b.last : Int) : ℚ) / 1000000000 := by
          rw [le_div_iff₀ (by norm_num)]; linarith
        have : (0 : ℚ) ≤ (gaps clk.tLast rest : ℚ) / 1000000000 := by positivity
        have : (0 : ℚ) ≤ (5 * ((n : ℚ) + 1) + 4) / 2 ^ 50 := by positivity
        push_cast at *
        linarith
      have hx1 : ((clk.tSince - b.last : Int) : ℚ) / 1000000000 ≤ 1 := by
        rw [div_le_one (by norm_num)]
        exact_mod_cast hd1.le
      have ha1 : a ≤ 1 := by
        have h1 : (0 : ℚ) ≤ ((clk.tSince : ℚ) - (b.last : ℚ) + (gaps clk.tLast rest : ℚ))
            / 1000000000 := by
          have : (0 : ℚ) ≤ (clk.tSince : ℚ) - (b.last : ℚ) := by exact_mod_cast hd0
          positivity
        have h2 : (0 : ℚ) ≤ (5 * ((n : ℚ) + 1) + 4) / 2 ^ 50 := by positivity
        linarith
      have he0 := hfl.seconds_nonneg hd0
      have he1 := hfl.seconds_le hd0 (by omega)
      set e := fl (Seconds fl (clk.tSince - b.last) * 1) with he
      have h3ε : (3 : ℚ) / 2 ^ 50 ≤ 1 := by norm_num
      have hs := hfl.le_add (x := b.tokens + e) (by linarith) (by linarith)
      have hsl : ((n + 1 : ℕ) : ℚ) ≤ fl (b.tokens + e) :=
        hfl.ge_nat (n + 1) (by omega) (by push_cast; linarith)
      push_cast at hsl
      have hrdef : refill fl (bucketOf rl ip clk) clk.tSince = min 10 (fl (b.tokens + e)) := by
        rw [bucketOf_some hb]; rfl
      have hrlo : (n : ℚ) + 1 ≤ refill fl (bucketOf rl ip clk) clk.tSince := by
        rw [hrdef]; exact le_min (by linarith) hsl
      have hrhi : refill fl (bucketOf rl ip clk) clk.tSince ≤ fl (b.tokens + e) := by
        rw [hrdef]; exact min_le_right _ _
      have hr10 : refill fl (bucketOf rl ip clk) clk.tSince ≤ 10 := by
        rw [hrdef]; exact min_le_left _ _
      have hr : 1 ≤ refill fl (bucketOf rl ip clk) clk.tSince := by linarith
      set r := refill fl (bucketOf rl ip clk) clk.tSince with hrr
      have ht'lo : (n : ℚ) ≤ fl (r - 1) := hfl.ge_nat n (by omega) (by linarith)
      have ht'hi := hfl.le_add (x := r - 1) (by linarith) (by linarith)
      have hrest := ih rest (Function.update rl ip (some { tokens := fl (r - 1), last := clk.tLast }))
        { tokens := fl (r - 1), last := clk.tLast }
        (a + ((clk.tSince - b.last : Int) : ℚ) / 1000000000 + 5 / 2 ^ 50)
        (by simp) (by omega) ht'lo (by linarith) (by simpa using hlen) hch'
        (by
          have e1 : (5 * ((n : ℚ) + 1) + 4) / 2 ^ 50 = 5 / 2 ^ 50 + (5 * (n : ℚ) + 4) / 2 ^ 50 := by
            ring
          have e2 : (((clk.tSince - b.last : Int) : ℚ) + (gaps clk.tLast rest : ℚ)) / 1000000000
              = ((clk.tSince - b.last : Int) : ℚ) / 1000000000
                + (gaps clk.tLast rest : ℚ) / 1000000000 := by ring
          push_cast at e2 hsum ⊢
          rw [e1, e2] at hsum
          linarith)
      simp only [allowSeq, allow_true hr, List.replicate_succ, List.cons_append]
      rw [← hrr, hrest]

/-- Every call leaves between 0 and 10 tokens in the bucket. The calls allowed and the tokens left
are paid for by the tokens found and the time between the calls, up to five roundings a call;
in exact arithmetic there is no rounding. -/
theorem allowSeq_bounds {fl : ℚ → ℚ} (hfl : RoundsToNearest fl) (ip : Bytes) :
    ∀ (clks : List Clock) (rl : Buckets) (b : bucket),
      rl ip = some b → 0 ≤ b.tokens → b.tokens ≤ 10 → chronological b.last clks = true →
      ∃ b' : bucket, (allowSeq fl rl ip clks).2 ip = some b' ∧ 0 ≤ b'.tokens ∧ b'.tokens ≤ 10
        ∧ (((allowSeq fl rl ip clks).1.count true : ℕ) : ℚ) + b'.tokens
              ≤ b.tokens + (gaps b.last clks : ℚ) / 1000000000 + 5 * clks.length / 2 ^ 50
        ∧ ((∀ x, fl x = x) →
            (((allowSeq fl rl ip clks).1.count true : ℕ) : ℚ) + b'.tokens
              ≤ b.tokens + (gaps b.last clks : ℚ) / 1000000000) := by
  intro clks
  induction clks with
  | nil =>
    intro rl b hb h0 h10 _
    exact ⟨b, hb, h0, h10, by simp [allowSeq, gaps], fun _ => by simp [allowSeq, gaps]⟩
  | cons clk rest ih =>
    intro rl b hb h0 h10 hch
    obtain ⟨hd0, _, hch'⟩ := gap_le_gaps hch
    have he0 := hfl.seconds_nonneg hd0
    have hs0 : 0 ≤ fl (b.tokens + fl (Seconds fl (clk.tSince - b.last) * 1)) :=
      hfl.nonneg (by linarith)
    have hrdef : refill fl (bucketOf rl ip clk) clk.tSince
        = min 10 (fl (b.tokens + fl (Seconds fl (clk.tSince - b.last) * 1))) := by
      rw [bucketOf_some hb]; rfl
    have hr0 : 0 ≤ refill fl (bucketOf rl ip clk) clk.tSince := by
      rw [hrdef]; exact le_min (by norm_num) hs0
    have hr10 : refill fl (bucketOf rl ip clk) clk.tSince ≤ 10 := by
      rw [hrdef]; exact min_le_left _ _
    have hrle : refill fl (bucketOf rl ip clk) clk.tSince
        ≤ b.tokens + ((clk.tSince - b.last : Int) : ℚ) / 1000000000 + 4 / 2 ^ 50 := by
      rw [bucketOf_some hb]; exact hfl.refill_le h0 hd0
    have hrex : (∀ x, fl x = x) → refill fl (bucketOf rl ip clk) clk.tSince
        ≤ b.tokens + ((clk.tSince - b.last : Int) : ℚ) / 1000000000 := by
      intro hex
      have hfun : fl = fun x => x := funext hex
      rw [hrdef]
      refine le_trans (min_le_right _ _) ?_
      rw [hex, hex, hfun, Seconds_exact, mul_one]
    have hlen : (5 : ℚ) * ((rest.length + 1 : ℕ) : ℚ) / 2 ^ 50
        = 5 / 2 ^ 50 + 5 * (rest.length : ℚ) / 2 ^ 50 := by
      push_cast; ring
    set r := refill fl (bucketOf rl ip clk) clk.tSince with hrr
    by_cases h : 1 ≤ r
    · have ht0 : 0 ≤ fl (r - 1) := hfl.nonneg (by linarith)
      have ht9 : fl (r - 1) ≤ 9 := by
        have h1 := hfl.mono (r - 1) 9 (by linarith)
        have h2 := hfl.exact 9 (by norm_num)
        norm_num at h2
        rwa [h2] at h1
      have hta := hfl.le_add (x := r - 1) (by linarith) (by linarith)
      obtain ⟨b', hb', hb0, hb10, hslack, hcount⟩ :=
        ih (Function.update rl ip (some { tokens := fl (r - 1), last := clk.tLast }))
          { tokens := fl (r - 1), last := clk.tLast } (by simp) ht0 (by linarith) hch'
      refine ⟨b', ?_, hb0, hb10, ?_, ?_⟩
      · simp only [allowSeq, allow_true h]
        rw [← hrr]; exact hb'
      · simp only [allowSeq, allow_true h, gaps, List.count_cons_self, List.length_cons]
        rw [← hrr, hlen]
        dsimp only at hslack
        push_cast at hslack hrle ⊢
        rw [add_div]
        linarith
      · intro hex
        have h1 := hcount hex
        have h2 := hrex hex
        simp only [allowSeq, allow_true h, gaps, List.count_cons_self]
        rw [← hrr]
        have hfr := hex (r - 1)
        dsimp only at h1
        push_cast at h1 h2 ⊢
        rw [add_div]
        linarith
    · have hlt : r < 1 := not_le.mp h
      obtain ⟨b', hb', hb0, hb10, hslack, hcount⟩ :=
        ih (Function.update rl ip (some { tokens := r, last := clk.tLast }))
          { tokens := r, last := clk.tLast } (by simp) hr0 hr10 hch'
      have hε : (0 : ℚ) < 1 / 2 ^ 50 := by positivity
      refine ⟨b', ?_, hb0, hb10, ?_, ?_⟩
      · simp only [allowSeq, allow_false hlt]
        rw [← hrr]; exact hb'
      · simp only [allowSeq, allow_false hlt, gaps, List.length_cons]
        rw [← hrr, hlen]
        rw [List.count_cons_of_ne (by decide)]
        dsimp only at hslack
        push_cast at hslack hrle ⊢
        rw [add_div]
        linarith
      · intro hex
        have h1 := hcount hex
        have h2 := hrex hex
        simp only [allowSeq, allow_false hlt, gaps]
        rw [← hrr]
        rw [List.count_cons_of_ne (by decide)]
        dsimp only at h1
        push_cast at h1 h2 ⊢
        rw [add_div]
        linarith

/-! ### A schedule on which the rounding of `float64` pays for a call -/

/-- Rounding to even yields the integer that is less than a half away. -/
theorem roundEven_eq_of_abs_lt {x : ℚ} {n : ℤ} (h : |x - n| < 1 / 2) : roundEven x = n := by
  rw [abs_lt] at h
  unfold roundEven
  have h1 : ⌈x - 1 / 2⌉ = n := by
    rw [Int.ceil_eq_iff]
    constructor <;> linarith
  have h2 : ⌊x + 1 / 2⌋ = n := by
    rw [Int.floor_eq_iff]
    constructor <;> linarith
  split <;> first | exact h1 | exact h2

/-- The spacing in the binade of `2^e`. -/
theorem ulp_of_binade {x : ℚ} (e : ℤ) (he : -1022 ≤ e) (h1 : (2 : ℚ) ^ e ≤ x)
    (h2 : x < (2 : ℚ) ^ (e + 1)) : ulp x = 2 ^ (e - 52) := by
  have hpos : 0 < x := lt_of_lt_of_le (by positivity) h1
  have hlo : e ≤ Int.log 2 x := by
    rw [← Int.zpow_le_iff_le_log (R := ℚ) (b := 2) (by norm_num) hpos]
    simpa using h1
  have hhi : Int.log 2 x < e + 1 := by
    rw [← Int.lt_zpow_iff_log_lt (R := ℚ) (b := 2) (by norm_num) hpos]
    simpa using h2
  have hlog : Int.log 2 x = e := by omega
  unfold ulp
  rw [hlog, max_eq_left he]

/-- A multiple of `2^-s` below `2^(53-s)` is a `float64`: rounding leaves it alone. -/
theorem roundFloat64_of_grid (s : ℕ) (hs : s ≤ 1074) (m : ℤ) (h0 : 0 ≤ m) (h53 : m < 2 ^ 53) :
    roundFloat64 ((m : ℚ) / 2 ^ s) = (m : ℚ) / 2 ^ s := by
  have hx0 : (0 : ℚ) ≤ (m : ℚ) / 2 ^ s := by
    have : (0 : ℚ) ≤ (m : ℚ) := by exact_mod_cast h0
    positivity
  unfold roundFloat64
  rw [if_pos hx0]
  rcases h0.lt_or_eq with hpos | hzero
  · have hxpos : (0 : ℚ) < (m : ℚ) / 2 ^ s := by
      have : (0 : ℚ) < (m : ℚ) := by exact_mod_cast hpos
      positivity
    have hlt : (m : ℚ) / 2 ^ s < (2 : ℚ) ^ ((53 : ℤ) - s) := by
      rw [zpow_sub₀ (by norm_num), zpow_natCast]
      apply div_lt_div_of_pos_right _ (by positivity)
      exact_mod_cast h53
    have hlog : Int.log 2 ((m : ℚ) / 2 ^ s) < (53 : ℤ) - s := by
      rw [← Int.lt_zpow_iff_log_lt (R := ℚ) (b := 2) (by norm_num) hxpos]
      simpa using hlt
    have hmax : max (Int.log 2 ((m : ℚ) / 2 ^ s)) (-1022) ≤ (52 : ℤ) - s :=
      max_le (by omega) (by omega)
    obtain ⟨j, hj⟩ : ∃ j : ℕ, (j : ℤ) = 52 - s - max (Int.log 2 ((m : ℚ) / 2 ^ s)) (-1022) :=
      ⟨(52 - s - max (Int.log 2 ((m : ℚ) / 2 ^ s)) (-1022)).toNat, Int.toNat_of_nonneg (by omega)⟩
    apply roundMagnitude_of_multiple (m * 2 ^ j)
    have hu : ulp ((m : ℚ) / 2 ^ s) = 2 ^ (-(s : ℤ) - (j : ℤ)) := by
      unfold ulp
      congr 1
      omega
    rw [hu, zpow_sub₀ (by norm_num), zpow_neg, zpow_natCast, zpow_natCast]
    push_cast
    have h2s : (2 : ℚ) ^ s ≠ 0 := by positivity
    have h2j : (2 : ℚ) ^ j ≠ 0 := by positivity
    field_simp
    ring
  · rw [← hzero]
    simpa using roundMagnitude_zero

/-- Zero is a `float64`. -/
theorem roundFloat64_zero : roundFloat64 0 = 0 := by
  simpa using roundFloat64_of_grid 0 (by norm_num) 0 le_rfl (by norm_num)

/-- No time is no seconds. -/
theorem Seconds_zero : Seconds roundFloat64 0 = 0 := by
  simp [Seconds, roundFloat64_zero]

/-- The `float64` of 0.999999791: the duration of 999 999 791 ns in seconds. -/
theorem Seconds_steady :
    Seconds roundFloat64 999999791 = (9007197372236348 : ℚ) / 2 ^ 53 := by
  have h1 : (999999791 : Int).tdiv 1000000000 = 0 := by decide
  have h2 : (999999791 : Int).tmod 1000000000 = 999999791 := by decide
  have hn : roundFloat64 (999999791 : ℚ) = 999999791 := by
    have := roundFloat64_natCast 999999791 (by norm_num)
    simpa using this
  have hu : ulp ((999999791 : ℚ) / 1000000000) = 2 ^ ((-1 : ℤ) - 52) :=
    ulp_of_binade (-1) (by norm_num) (by norm_num) (by norm_num)
  have hr : roundEven ((999999791 : ℚ) / 1000000000 / 2 ^ ((-1 : ℤ) - 52))
      = 9007197372236348 := by
    apply roundEven_eq_of_abs_lt
    rw [abs_lt]
    constructor <;> norm_num
  have hq : roundFloat64 ((999999791 : ℚ) / 1000000000) = (9007197372236348 : ℚ) / 2 ^ 53 := by
    unfold roundFloat64
    rw [if_pos (by norm_num)]
    unfold roundMagnitude
    rw [hu, hr]
    norm_num
  have hg := roundFloat64_of_grid 53 (by norm_num) 9007197372236348 (by norm_num) (by norm_num)
  unfold Seconds
  rw [h1, h2]
  push_cast
  rw [roundFloat64_zero, hn, hq, zero_add]
  simpa using hg

/-- The refill of a bucket that holds between 8 and 9 tokens, 999 999 791 ns after its last
refill: the sum is rounded up to the next multiple of `2^-49`, which adds `1 - 117656540 / 2^49`
tokens, more than the 0.999999791 tokens of exact arithmetic. -/
theorem refill_steady {m : ℤ} (hlo : 8 * 2 ^ 49 ≤ m) (hhi : m ≤ 9 * 2 ^ 49) (t : Int) :
    refill roundFloat64 { tokens := (m : ℚ) / 2 ^ 49, last := t } (t + 999999791)
      = ((m - 117656540 : ℤ) : ℚ) / 2 ^ 49 + 1 := by
  have hloq : ((8 * 2 ^ 49 : ℤ) : ℚ) ≤ (m : ℚ) := by exact_mod_cast hlo
  have hhiq : (m : ℚ) ≤ ((9 * 2 ^ 49 : ℤ) : ℚ) := by exact_mod_cast hhi
  push_cast at hloq hhiq
  have he : roundFloat64 ((9007197372236348 : ℚ) / 2 ^ 53 * 1) = (9007197372236348 : ℚ) / 2 ^ 53 := by
    rw [mul_one]
    simpa using roundFloat64_of_grid 53 (by norm_num) 9007197372236348 (by norm_num) (by norm_num)
  have hx8 : (8 : ℚ) ≤ (m : ℚ) / 2 ^ 49 + (9007197372236348 : ℚ) / 2 ^ 53 := by
    have : (8 : ℚ) ≤ (m : ℚ) / 2 ^ 49 := by
      rw [le_div_iff₀ (by positivity)]; linarith
    have : (0 : ℚ) ≤ (9007197372236348 : ℚ) / 2 ^ 53 := by positivity
    linarith
  have hx16 : (m : ℚ) / 2 ^ 49 + (9007197372236348 : ℚ) / 2 ^ 53 < 16 := by
    have h1 : (m : ℚ) / 2 ^ 49 ≤ 9 := by
      rw [div_le_iff₀ (by positivity)]; linarith
    have h2 : (9007197372236348 : ℚ) / 2 ^ 53 < 1 := by norm_num
    linarith
  have hu : ulp ((m : ℚ) / 2 ^ 49 + (9007197372236348 : ℚ) / 2 ^ 53) = 2 ^ ((3 : ℤ) - 52) :=
    ulp_of_binade 3 (by norm_num) (by norm_num; linarith) (by norm_num; linarith)
  have hr : roundEven (((m : ℚ) / 2 ^ 49 + (9007197372236348 : ℚ) / 2 ^ 53) / 2 ^ ((3 : ℤ) - 52))
      = m + 562949835764772 := by
    apply roundEven_eq_of_abs_lt
    have e : ((m : ℚ) / 2 ^ 49 + (9007197372236348 : ℚ) / 2 ^ 53) / 2 ^ ((3 : ℤ) - 52)
        - ((m + 562949835764772 : ℤ) : ℚ) = -(1 / 4) := by
      rw [zpow_sub₀ (by norm_num)]
      push_cast
      norm_num
      ring
    rw [e, abs_neg, abs_of_pos (by norm_num)]
    norm_num
  have hsum : roundFloat64 ((m : ℚ) / 2 ^ 49 + (9007197372236348 : ℚ) / 2 ^ 53)
      = ((m - 117656540 : ℤ) : ℚ) / 2 ^ 49 + 1 := by
    unfold roundFloat64
    rw [if_pos (by linarith)]
    unfold roundMagnitude
    rw [hu, hr, zpow_sub₀ (by norm_num)]
    push_cast
    norm_num
    ring
  unfold refill
  dsimp only
  rw [add_sub_cancel_left, Seconds_steady, he, hsum]
  apply min_eq_right
  push_cast
  have : ((m : ℚ) - 117656540) / 2 ^ 49 ≤ 9 - 117656540 / 2 ^ 49 := by
    rw [sub_div]
    have h1 : (m : ℚ) / 2 ^ 49 ≤ 9 := by
      rw [div_le_iff₀ (by positivity)]; linarith
    linarith
  have : (0 : ℚ) ≤ 117656540 / 2 ^ 49 := by positivity
  linarith

/-- A call 999 999 791 ns after the last one, on a bucket that holds between 8 and 9 tokens, is
allowed and costs the bucket `117656540 / 2^49` tokens. -/
theorem allow_steady {rl : Buckets} {ip : Bytes} {m : ℤ} {t : Int}
    (hb : rl ip = some { tokens := (m : ℚ) / 2 ^ 49, last := t })
    (hlo : 8 * 2 ^ 49 ≤ m) (hhi : m ≤ 9 * 2 ^ 49) :
    allow roundFloat64 rl ip (instant (t + 999999791))
      = (true, Function.update rl ip
          (some { tokens := ((m - 117656540 : ℤ) : ℚ) / 2 ^ 49, last := t + 999999791 })) := by
  have hr : refill roundFloat64 (bucketOf rl ip (instant (t + 999999791)))
      (instant (t + 999999791)).tSince = ((m - 117656540 : ℤ) : ℚ) / 2 ^ 49 + 1 := by
    rw [bucketOf_some hb]
    exact refill_steady hlo hhi t
  have h0 : (0 : ℚ) ≤ ((m - 117656540 : ℤ) : ℚ) / 2 ^ 49 := by
    have : (0 : ℚ) ≤ ((m - 117656540 : ℤ) : ℚ) := by
      have : (0 : ℤ) ≤ m - 117656540 := by omega
      exact_mod_cast this
    positivity
  rw [allow_true (by rw [hr]; linarith), hr, add_sub_cancel_right,
    roundFloat64_of_grid 49 (by norm_num) (m - 117656540) (by omega) (by omega)]
  rfl

/-- A call at the instant of the last one, on a bucket that holds at least one token and a
multiple of `2^-49` tokens, is allowed and costs exactly one token. -/
theorem allow_again {rl : Buckets} {ip : Bytes} {m : ℤ} {t : Int}
    (hb : rl ip = some { tokens := (m : ℚ) / 2 ^ 49, last := t })
    (hlo : 2 ^ 49 ≤ m) (hhi : m ≤ 10 * 2 ^ 49) :
    allow roundFloat64 rl ip (instant t)
      = (true, Function.update rl ip
          (some { tokens := ((m - 2 ^ 49 : ℤ) : ℚ) / 2 ^ 49, last := t })) := by
  have hloq : ((2 ^ 49 : ℤ) : ℚ) ≤ (m : ℚ) := by exact_mod_cast hlo
  have hhiq : (m : ℚ) ≤ ((10 * 2 ^ 49 : ℤ) : ℚ) := by exact_mod_cast hhi
  push_cast at hloq hhiq
  have hr : refill roundFloat64 (bucketOf rl ip (instant t)) (instant t).tSince
      = (m : ℚ) / 2 ^ 49 := by
    rw [bucketOf_some hb]
    unfold refill instant
    dsimp only
    rw [sub_self, Seconds_zero, zero_mul, roundFloat64_zero, add_zero,
      roundFloat64_of_grid 49 (by norm_num) m (by omega) (by omega)]
    apply min_eq_right
    rw [div_le_iff₀ (by positivity)]
    linarith
  have h1 : (1 : ℚ) ≤ (m : ℚ) / 2 ^ 49 := by
    rw [le_div_iff₀ (by positivity)]
    linarith
  have hsub : (m : ℚ) / 2 ^ 49 - 1 = ((m - 2 ^ 49 : ℤ) : ℚ) / 2 ^ 49 := by
    push_cast
    field_simp
    norm_num
  rw [allow_true (by rw [hr]; exact h1), hr, hsub,
    roundFloat64_of_grid 49 (by norm_num) (m - 2 ^ 49) (by omega) (by omega)]
  rfl

/-- A bucket that holds at least `j` tokens, a multiple of `2^-49`, lets `j` calls at the instant
of its last refill through. -/
theorem allowSeq_again (ip : Bytes) (t : Int) :
    ∀ (j : ℕ) (rl : Buckets) (m : ℤ),
      rl ip = some { tokens := (m : ℚ) / 2 ^ 49, last := t } →
      (j : ℤ) * 2 ^ 49 ≤ m → m ≤ 10 * 2 ^ 49 →
      (allowSeq roundFloat64 rl ip (List.replicate j (instant t))).1 = List.replicate j true := by
  intro j
  induction j with
  | zero => intro rl m _ _ _; rfl
  | succ j ih =>
    intro rl m hb hlo hhi
    push_cast at hlo
    have h1 := allow_again hb (by nlinarith [Int.natCast_nonneg j] : (2 : ℤ) ^ 49 ≤ m) hhi
    have hrest := ih (Function.update rl ip
        (some { tokens := ((m - 2 ^ 49 : ℤ) : ℚ) / 2 ^ 49, last := t })) (m - 2 ^ 49)
      (by simp) (by linarith) (by omega)
    simp only [List.replicate_succ, allowSeq, h1]
    rw [hrest]

/-- A bucket that holds between 8 and 9 tokens, a multiple of `2^-49`, lets through `n` calls
999 999 791 ns apart and 8 calls at the instant of the last, if it can pay `117656540 / 2^49`
tokens for each of the `n` and still hold 8. -/
theorem allowSeq_steadyThenBurst (ip : Bytes) :
    ∀ (n : ℕ) (t : Int) (rl : Buckets) (m : ℤ),
      rl ip = some { tokens := (m : ℚ) / 2 ^ 49, last := t } →
      8 * 2 ^ 49 + (n : ℤ) * 117656540 ≤ m → m ≤ 9 * 2 ^ 49 →
      (allowSeq roundFloat64 rl ip (steadyThenBurst 999999791 n t)).1
        = List.replicate (n + 8) true := by
  intro n
  induction n with
  | zero =>
    intro t rl m hb hlo hhi
    exact allowSeq_again ip t 8 rl m hb (by push_cast at hlo ⊢; linarith) (by omega)
  | succ n ih =>
    intro t rl m hb hlo hhi
    push_cast at hlo
    have h1 := allow_steady hb (by nlinarith [Int.natCast_nonneg n]) hhi
    have hrest := ih (t + 999999791) (Function.update rl ip
        (some { tokens := ((m - 117656540 : ℤ) : ℚ) / 2 ^ 49, last := t + 999999791 }))
      (m - 117656540) (by simp) (by linarith) (by omega)
    have hlen : n + 1 + 8 = (n + 8) + 1 := by omega
    rw [hlen, List.replicate_succ]
    simp only [steadyThenBurst, allowSeq, h1]
    rw [hrest]

/-- Calls at one instant are in chronological order and no time passes between them. -/
theorem chronological_replicate (t : Int) :
    ∀ j : ℕ, chronological t (List.replicate j (instant t)) = true
      ∧ gaps t (List.replicate j (instant t)) = 0 := by
  intro j
  induction j with
  | zero => exact ⟨rfl, rfl⟩
  | succ j ih =>
    simp only [List.replicate_succ, chronological, gaps, instant, le_refl, decide_True,
      Bool.true_and, sub_self, zero_add]
    exact ih

/-- Calls `d ≥ 0` nanoseconds apart are in chronological order, and `n * d` nanoseconds pass
between them. -/
theorem chronological_steadyThenBurst {d : Int} (hd : 0 ≤ d) :
    ∀ (n : ℕ) (t : Int), chronological t (steadyThenBurst d n t) = true
      ∧ gaps t (steadyThenBurst d n t) = n * d := by
  intro n
  induction n with
  | zero =>
    intro t
    simpa [steadyThenBurst] using chronological_replicate t 8
  | succ n ih =>
    intro t
    obtain ⟨h1, h2⟩ := ih (t + d)
    refine ⟨?_, ?_⟩
    · simp only [steadyThenBurst, chronological, instant, Bool.and_eq_true, decide_eq_true_eq]
      exact ⟨⟨by omega, le_rfl⟩, h1⟩
    · simp only [steadyThenBurst, gaps, instant]
      rw [h2]
      push_cast
      ring

/-- A new client's first call, `n` calls 999 999 791 ns apart and 8 calls at the instant of the
last are all allowed in `float64` arithmetic, as long as `n * 117656540 / 2^49` is at most one
token; they are in chronological order and `n * 999999791` ns pass between them. -/
theorem allowSeq_first_steadyThenBurst (ip : Bytes) (n : ℕ) (hn : (n : ℤ) * 117656540 ≤ 2 ^ 49) :
    chronological (instant 0).tNew (instant 0 :: steadyThenBurst 999999791 n 0) = true
    ∧ gaps (instant 0).tLast (steadyThenBurst 999999791 n 0) = n * 999999791
    ∧ (allowSeq roundFloat64 (fun _ => none) ip (instant 0 :: steadyThenBurst 999999791 n 0)).1
        = List.replicate (n + 9) true := by
  obtain ⟨hch, hgaps⟩ :=
    chronological_steadyThenBurst (by norm_num : (0 : Int) ≤ 999999791) n 0
  have h1 : allow roundFloat64 (fun _ => none) ip (instant 0)
      = (true, Function.update (fun _ => none) ip (some { tokens := 9, last := 0 })) :=
    allow_new roundsToNearest_float64 (instant 0) rfl le_rfl
  have hrest := allowSeq_steadyThenBurst ip n 0
    (Function.update (fun _ => none) ip (some { tokens := 9, last := 0 })) (9 * 2 ^ 49)
    (by rw [Function.update_same]; norm_num) (by linarith) le_rfl
  refine ⟨?_, hgaps, ?_⟩
  · simp only [chronological, instant, le_refl, decide_True, Bool.true_and]
    exact hch
  · have hlen : n + 9 = (n + 8) + 1 := by omega
    rw [hlen, List.replicate_succ]
    simp only [allowSeq, h1]
    rw [hrest]

/-! ## The claims on the rate limiter -/

/-- Claim C2. A client not seen before makes 11 consecutive calls `allow(ip)`, with less than one
second in total passing between the calls (possibly none): the first 10 calls return `true` and
the 11th returns `false`. The arithmetic is `float64` arithmetic, of which the proof uses what
`RoundsToNearest` states; `clk` holds the readings of the first call, `rest` those of the ten
that follow. -/
theorem first_ten_allowed_eleventh_denied (fl : ℚ → ℚ) (hfl : RoundsToNearest fl)
    (rl : Buckets) (ip : Bytes) (clk : Clock) (rest : List Clock)
    (hNew : rl ip = none) (hLen : rest.length = 10)
    (hChron : chronological clk.tNew (clk :: rest) = true)
    (hElapsed : gaps clk.tLast rest < 1000000000) :
    (allowSeq fl rl ip (clk :: rest)).1 = List.replicate 10 true ++ [false] := by
  obtain ⟨hd0, _, hch⟩ := gap_le_gaps hChron
  have h1 := allow_new hfl clk hNew (by omega)
  have hg : (gaps clk.tLast rest : ℚ) ≤ 999999999 := by
    exact_mod_cast (by omega : gaps clk.tLast rest ≤ 999999999)
  have hrest := burst hfl ip 9 rest
    (Function.update rl ip (some { tokens := 9, last := clk.tLast }))
    { tokens := 9, last := clk.tLast } 0 (by simp) (by norm_num) (by norm_num) (by norm_num)
    (by simpa using hLen) hch
    (by
      have : (gaps clk.tLast rest : ℚ) / 1000000000 ≤ 999999999 / 1000000000 := by
        apply div_le_div_of_nonneg_right hg (by norm_num)
      norm_num at this ⊢
      linarith)
  simp only [allowSeq, h1, hrest]
  rfl

/-- Witness of C2: eleven calls within 500 ms, in `float64` arithmetic. -/
theorem first_ten_allowed_eleventh_denied_witness :
    (allowSeq roundFloat64 (fun _ => none) (str "10.0.0.1") (firstCall :: every50ms 10)).1
      = List.replicate 10 true ++ [false] :=
  first_ten_allowed_eleventh_denied roundFloat64 roundsToNearest_float64 (fun _ => none)
    (str "10.0.0.1") firstCall (every50ms 10) rfl (by decide) (by decide) (by decide)

/-- Claim C3. A client has a bucket `(tokens, lastRefill)` and calls `allow(ip)` at the time
`now`, with `elapsed = now - lastRefill ≥ 0` seconds; let `r = min(10, tokens + elapsed)`. The
call returns `true` iff `r ≥ 1`; when it returns `true` the bucket holds `r - 1` tokens, when it
returns `false` it holds `r`, which is less than 1; either way `lastRefill` is `now`. The sum and
the difference are the `float64` operations of the code, whatever their rounding `fl` is; the
two readings of the clock that the call takes are both `now`. -/
theorem allow_existing_bucket (fl : ℚ → ℚ) (rl : Buckets) (ip : Bytes) (tokens : ℚ)
    (lastRefill now tNew : Int) (hBucket : rl ip = some { tokens := tokens, last := lastRefill })
    (hElapsed : 0 ≤ now - lastRefill) :
    ((allow fl rl ip { tNew := tNew, tSince := now, tLast := now }).1 = true
        ↔ 1 ≤ min 10 (fl (tokens + fl (Seconds fl (now - lastRefill) * 1))))
    ∧ ((allow fl rl ip { tNew := tNew, tSince := now, tLast := now }).1 = true →
        (allow fl rl ip { tNew := tNew, tSince := now, tLast := now }).2 ip
          = some { tokens := fl (min 10 (fl (tokens + fl (Seconds fl (now - lastRefill) * 1))) - 1),
                   last := now })
    ∧ ((allow fl rl ip { tNew := tNew, tSince := now, tLast := now }).1 = false →
        (allow fl rl ip { tNew := tNew, tSince := now, tLast := now }).2 ip
          = some { tokens := min 10 (fl (tokens + fl (Seconds fl (now - lastRefill) * 1))),
                   last := now }
        ∧ min 10 (fl (tokens + fl (Seconds fl (now - lastRefill) * 1))) < 1) := by
  have _ := hElapsed
  have hb := bucketOf_some hBucket { tNew := tNew, tSince := now, tLast := now }
  have hr : refill fl (bucketOf rl ip { tNew := tNew, tSince := now, tLast := now }) now
      = min 10 (fl (tokens + fl (Seconds fl (now - lastRefill) * 1))) := by
    rw [hb]; rfl
  by_cases h : 1 ≤ refill fl (bucketOf rl ip { tNew := tNew, tSince := now, tLast := now }) now
  · rw [allow_true h, hr]
    rw [hr] at h
    exact ⟨⟨fun _ => h, fun _ => rfl⟩, fun _ => Function.update_same _ _ _,
      fun hc => Bool.noConfusion hc⟩
  · rw [allow_false (not_le.mp h), hr]
    rw [hr] at h
    exact ⟨⟨fun hc => Bool.noConfusion hc, fun hc => absurd hc h⟩,
      fun hc => Bool.noConfusion hc, fun _ => ⟨Function.update_same _ _ _, not_le.mp h⟩⟩

/-- Witness of C3: half a token and two seconds make a call allowed, in `float64` arithmetic. -/
theorem allow_existing_bucket_witness :
    (allow roundFloat64 (fun _ => some { tokens := 1 / 2, last := 0 }) (str "10.0.0.1")
      { tNew := 0, tSince := 2000000000, tLast := 2000000000 }).1 = true :=
  ((allow_existing_bucket roundFloat64 (fun _ => some { tokens := 1 / 2, last := 0 })
    (str "10.0.0.1") (1 / 2) 0 2000000000 0 rfl (by decide)).1).2
    (by
      have hfl := roundsToNearest_float64
      have h2 : roundFloat64 ((2 : ℕ) : ℚ) = (2 : ℕ) := hfl.exact 2 (by norm_num)
      have h0 : (0 : ℚ) ≤ roundFloat64 (roundFloat64 (((0 : Int) : ℚ)) / 1000000000) :=
        hfl.nonneg (div_nonneg (hfl.nonneg (by norm_num)) (by norm_num))
      have hS : ((2 : ℕ) : ℚ) ≤ Seconds roundFloat64 (2000000000 - 0) := by
        unfold Seconds
        have e1 : ((2000000000 - 0 : Int)).tdiv 1000000000 = 2 := by decide
        have e2 : ((2000000000 - 0 : Int)).tmod 1000000000 = 0 := by decide
        rw [e1, e2]
        apply hfl.ge_nat 2 (by norm_num)
        push_cast at h2 ⊢
        rw [h2]
        linarith
      have hS1 : ((2 : ℕ) : ℚ) ≤ roundFloat64 (Seconds roundFloat64 (2000000000 - 0) * 1) :=
        hfl.ge_nat 2 (by norm_num) (by rw [mul_one]; exact hS)
      have hr : ((1 : ℕ) : ℚ)
          ≤ roundFloat64 (1 / 2 + roundFloat64 (Seconds roundFloat64 (2000000000 - 0) * 1)) :=
        hfl.ge_nat 1 (by norm_num) (by push_cast at hS1 ⊢; linarith)
      push_cast at hr
      exact le_min (by norm_num) hr)

/-- Counterexample to C10 as stated, in the `float64` arithmetic of the code: a client's first
call, 4 784 689 calls 999 999 791 ns apart and 8 calls at the instant of the last. The calls are
in chronological order, `T = 4784688 - 10^-9` seconds pass between them, and all 4 784 698 are
allowed, which is more than `10 + T`: at each of the calls 999 999 791 ns apart the sum
`tokens + elapsed` is rounded up, by `2^-51` tokens. -/
theorem float64_allows_more_than_ten_plus_elapsed :
    chronological (instant 0).tNew (instant 0 :: steadyThenBurst 999999791 4784689 0) = true
    ∧ (gaps (instant 0).tLast (steadyThenBurst 999999791 4784689 0) : ℚ) / 1000000000
        = 4784688 - 1 / 1000000000
    ∧ (allowSeq roundFloat64 (fun _ => none) (str "10.0.0.1")
        (instant 0 :: steadyThenBurst 999999791 4784689 0)).1 = List.replicate 4784698 true
    ∧ (10 : ℚ) + (gaps (instant 0).tLast (steadyThenBurst 999999791 4784689 0) : ℚ) / 1000000000
        < (((allowSeq roundFloat64 (fun _ => none) (str "10.0.0.1")
            (instant 0 :: steadyThenBurst 999999791 4784689 0)).1.count true : ℕ) : ℚ) := by
  obtain ⟨hch, hgaps, hall⟩ :=
    allowSeq_first_steadyThenBurst (str "10.0.0.1") 4784689 (by norm_num)
  have hT : (gaps (instant 0).tLast (steadyThenBurst 999999791 4784689 0) : ℚ) / 1000000000
      = 4784688 - 1 / 1000000000 := by
    rw [hgaps]
    norm_num
  refine ⟨hch, hT, hall, ?_⟩
  rw [hall, hT, List.count_replicate_self]
  norm_num

/-- Claim C10, amended. A client not seen before makes a finite sequence of calls `allow(ip)` in
chronological order, with `T` seconds in total passing between consecutive calls. After the last
call (hence after every call, each prefix being such a sequence) the bucket holds between 0 and
10 tokens, and the number of calls that returned `true` is at most `10 + T + 5 n / 2^50`, where
`n` is the number of calls after the first: a call rounds up to five `float64` results, each by
at most `2^-50`. Hence the number is at most `10 + T` for up to 200 000 calls after the first,
over which the roundings stay below a nanosecond of tokens, and for every sequence in exact
arithmetic. -/
theorem allowed_at_most_ten_plus_elapsed (fl : ℚ → ℚ) (hfl : RoundsToNearest fl)
    (rl : Buckets) (ip : Bytes) (clk : Clock) (rest : List Clock)
    (hNew : rl ip = none) (hChron : chronological clk.tNew (clk :: rest) = true) :
    (∃ b : bucket, (allowSeq fl rl ip (clk :: rest)).2 ip = some b
        ∧ 0 ≤ b.tokens ∧ b.tokens ≤ 10)
    ∧ (((allowSeq fl rl ip (clk :: rest)).1.count true : ℕ) : ℚ)
        ≤ 10 + (gaps clk.tLast rest : ℚ) / 1000000000 + 5 * rest.length / 2 ^ 50
    ∧ ((∀ x, fl x = x) ∨ rest.length ≤ 200000 →
        (((allowSeq fl rl ip (clk :: rest)).1.count true : ℕ) : ℚ)
          ≤ 10 + (gaps clk.tLast rest : ℚ) / 1000000000) := by
  obtain ⟨hd0, _, hch⟩ := gap_le_gaps hChron
  have h1 := allow_new hfl clk hNew (by omega)
  obtain ⟨b', hb', hb0, hb10, hslack, hcount⟩ :=
    allowSeq_bounds hfl ip rest (Function.update rl ip (some { tokens := 9, last := clk.tLast }))
      { tokens := 9, last := clk.tLast } (by simp) (by norm_num) (by norm_num) hch
  dsimp only at hslack hcount
  have hall : (((allowSeq fl rl ip (clk :: rest)).1.count true : ℕ) : ℚ)
      ≤ 10 + (gaps clk.tLast rest : ℚ) / 1000000000 + 5 * rest.length / 2 ^ 50 := by
    simp only [allowSeq, h1, List.count_cons_self]
    push_cast
    linarith
  refine ⟨⟨b', ?_, hb0, hb10⟩, hall, ?_⟩
  · simp only [allowSeq, h1]; exact hb'
  · simp only [allowSeq, h1, List.count_cons_self]
    rintro (hex | hlen)
    · have h2 := hcount hex
      push_cast at h2 ⊢
      linarith
    · set c := List.count true
        (allowSeq fl (Function.update rl ip (some { tokens := 9, last := clk.tLast })) ip rest).1
        with hc
      set G := gaps clk.tLast rest with hG
      have hn : (rest.length : ℚ) ≤ 200000 := by exact_mod_cast hlen
      have hq : ((c + 1 : ℕ) : ℚ) ≤ 10 + (G : ℚ) / 1000000000 + 5 * 200000 / 2 ^ 50 := by
        have : (5 : ℚ) * (rest.length : ℚ) / 2 ^ 50 ≤ 5 * 200000 / 2 ^ 50 := by
          apply div_le_div_of_nonneg_right _ (by positivity)
          linarith
        push_cast
        linarith
      by_contra hne
      have hlt : (10 : ℚ) + (G : ℚ) / 1000000000 < ((c + 1 : ℕ) : ℚ) := not_le.mp hne
      have hlt' : (10000000000 : ℚ) + (G : ℚ) < 1000000000 * ((c + 1 : ℕ) : ℚ) := by
        have := mul_lt_mul_of_pos_left hlt (by norm_num : (0 : ℚ) < 1000000000)
        have e : (1000000000 : ℚ) * (10 + (G : ℚ) / 1000000000) = 10000000000 + (G : ℚ) := by
          field_simp; ring
        rw [e] at this
        exact this
      have hz : (10000000000 : Int) + G < 1000000000 * ((c + 1 : ℕ) : Int) := by
        exact_mod_cast hlt'
      have hz' : (10000000000 : Int) + G + 1 ≤ 1000000000 * ((c + 1 : ℕ) : Int) := by omega
      have hge : (10000000000 : ℚ) + (G : ℚ) + 1 ≤ 1000000000 * ((c + 1 : ℕ) : ℚ) := by
        exact_mod_cast hz'
      have hsmall : (1000000000 : ℚ) * (5 * 200000 / 2 ^ 50) < 1 := by norm_num
      have hmul := mul_le_mul_of_nonneg_left hq (by norm_num : (0 : ℚ) ≤ 1000000000)
      have e2 : (1000000000 : ℚ) * (10 + (G : ℚ) / 1000000000 + 5 * 200000 / 2 ^ 50)
          = 10000000000 + (G : ℚ) + 1000000000 * (5 * 200000 / 2 ^ 50) := by
        field_simp; ring
      rw [e2] at hmul
      linarith

/-- Witness of C10: 31 calls, one every 50 ms, in `float64` arithmetic. -/
theorem allowed_at_most_ten_plus_elapsed_witness :
    (((allowSeq roundFloat64 (fun _ => none) (str "10.0.0.1")
        (firstCall :: every50ms 30)).1.count true : ℕ) : ℚ)
      ≤ 10 + (gaps firstCall.tLast (every50ms 30) : ℚ) / 1000000000 :=
  (allowed_at_most_ten_plus_elapsed roundFloat64 roundsToNearest_float64 (fun _ => none)
    (str "10.0.0.1") firstCall (every50ms 30) rfl (by decide)).2.2 (Or.inr (by decide))

/-! ## The claims on the request inspector -/

/-- Claim C1. For every POST request with body bytes `b`, whatever its content type and whether
or not the form or the JSON parses: if `checkSQLInjection` returns `nil`, the request body is on
return an unread reader over exactly `b`, and that is the body of the request handed to the
upstream relay. -/
theorem body_restored_when_allowed (r : Request) (b : Bytes)
    (hPost : r.Method = str "POST") (hBody : r.Body = Body.conn b false)
    (hNil : (checkSQLInjection r).1 = none) :
    (checkSQLInjection r).2.Body = Body.reader b
    ∧ (checkSQLInjection r).2.Body.ReadAll = (b, Body.reader [])
    ∧ ∀ (fl : ℚ → ℚ) (rl : Buckets) (clk : Clock) (upstream : Request),
        (ServeHTTP fl rl clk r).1 = Response.proxy upstream →
        upstream.Body = Body.reader b := by
  have key := checkSQLInjection_restores hPost hBody hNil
  refine ⟨key, by rw [key]; rfl, fun fl rl clk upstream hfwd => ?_⟩
  unfold ServeHTTP at hfwd
  rcases hres : allow fl rl (hostOf r.RemoteAddr) clk with ⟨ok, rl'⟩
  rcases hc : checkSQLInjection r with ⟨e, r'⟩
  rw [hc] at hNil key
  simp only at hNil key
  subst hNil
  cases ok <;> simp [hres, hc] at hfwd
  rw [← hfwd]; exact key

/-- Witness of C1: the login form passes and its body is restored. -/
theorem body_restored_when_allowed_witness :
    (checkSQLInjection loginForm).1 = none
    ∧ (checkSQLInjection loginForm).2.Body = Body.reader (str "username=alice&password=secret") :=
  ⟨by decide, (body_restored_when_allowed loginForm _ rfl rfl (by decide)).1⟩

/-- Counterexample to C5 as stated: `; cat /etc/passwd` is reported as path traversal, not as
command injection, and `cmdRe` does not match it at all. -/
theorem cat_passwd_is_path_traversal :
    checkMaliciousContent (str "; cat /etc/passwd") = some (str "path traversal pattern detected")
    ∧ checkMaliciousContent (str "; cat /etc/passwd")
        ≠ some (str "command injection pattern detected")
    ∧ cmdRe.MatchString (str "; cat /etc/passwd") = false := by
  refine ⟨by decide, by decide, by decide⟩

/-- Claim C5, amended. The four example fragments are classified as attacks: `' OR '1'='1` as SQL
injection, `<script>alert(1)</script>` as XSS, `../../etc/passwd` as path traversal and
`; cat /etc/passwd` as path traversal too; and a request that the rate limiter allows and that
carries one of them as its query string or as its POST body is answered 403. -/
theorem known_signatures_rejected (frag err : Bytes)
    (hExample : (frag, err) ∈
      [(str "' OR '1'='1", str "SQL injection pattern detected"),
       (str "<script>alert(1)</script>", str "XSS pattern detected"),
       (str "../../etc/passwd", str "path traversal pattern detected"),
       (str "; cat /etc/passwd", str "path traversal pattern detected")])
    (fl : ℚ → ℚ) (rl : Buckets) (clk : Clock) (r : Request)
    (hAllow : (allow fl rl (hostOf r.RemoteAddr) clk).1 = true)
    (hCarries : r.RawQuery = frag ∨ (r.Method = str "POST" ∧ r.Body.ReadAll.1 = frag)) :
    checkMaliciousContent frag = some err
    ∧ (checkSQLInjection r).1 ≠ none
    ∧ (ServeHTTP fl rl clk r).1 = Response.Error (str "Forbidden") 403 := by
  have hclass : checkMaliciousContent frag = some err := by
    simp only [List.mem_cons, Prod.mk.injEq, List.mem_singleton, List.not_mem_nil, or_false]
      at hExample
    rcases hExample with ⟨rfl, rfl⟩ | ⟨rfl, rfl⟩ | ⟨rfl, rfl⟩ | ⟨rfl, rfl⟩ <;> decide
  have hrej : (checkSQLInjection r).1 ≠ none := by
    cases hq : checkMaliciousContent r.RawQuery with
    | some e => rw [checkSQLInjection_query hq]; simp
    | none =>
      rcases hCarries with h | ⟨hPost, hb⟩
      · rw [h, hclass] at hq; cases hq
      · rw [checkSQLInjection_body hq hPost (by rw [hb]; exact hclass)]; simp
  refine ⟨hclass, hrej, ?_⟩
  rw [ServeHTTP_of_allowed hAllow]
  cases h : (checkSQLInjection r).1 with
  | none => exact absurd h hrej
  | some e => rfl

/-- Witness of C5: a first request that posts `; cat /etc/passwd` is answered 403. -/
theorem known_signatures_rejected_witness :
    (ServeHTTP roundFloat64 (fun _ => none) firstCall catPasswdAsText).1
      = Response.Error (str "Forbidden") 403 :=
  (known_signatures_rejected (str "; cat /etc/passwd") (str "path traversal pattern detected")
    (by decide) roundFloat64 (fun _ => none) firstCall catPasswdAsText
    (by rw [allow_new roundsToNearest_float64 _ rfl (by decide)])
    (Or.inr ⟨rfl, rfl⟩)).2.2

/-- Claim C7. For every POST body that `json.Unmarshal` decodes into the map `entries`, the
recursive check reports a violation iff `checkMaliciousContent` rejects at least one string
reached through the values of entries and the elements of arrays, at any depth. Numbers, booleans
and `null` are never a violation, and renaming the keys changes nothing. The map of
`{"a": ["safe", {"b": "<script>"}]}` is rejected (XSS), the map of `{"a": 123, "b": true}` is
not, and a POST of the one as `application/json` is rejected while a POST of the other
passes. -/
theorem checkJSON_rejects_iff_string_leaf (body : Bytes) (entries : List (Bytes × json.Value))
    (hParsed : json.Unmarshal body = some entries) :
    (checkJSON (json.Value.object entries) ≠ none
        ↔ ∃ s ∈ (json.Value.object entries).strings, checkMaliciousContent s ≠ none)
    ∧ (∀ literal, checkJSON (json.Value.number literal) = none)
    ∧ (∀ b, checkJSON (json.Value.bool b) = none)
    ∧ checkJSON json.Value.null = none
    ∧ (∀ rename : Bytes → Bytes,
        checkJSON (json.Value.object (entries.map fun e => (rename e.1, e.2)))
          = checkJSON (json.Value.object entries))
    ∧ (json.Unmarshal nestedScript = some nestedScriptMap
        ∧ checkJSON (json.Value.object nestedScriptMap) = some (str "XSS pattern detected")
        ∧ (checkSQLInjection (post (str "application/json") nestedScript parseNothing)).1 ≠ none)
    ∧ (json.Unmarshal numberAndBool = some numberAndBoolMap
        ∧ checkJSON (json.Value.object numberAndBoolMap) = none
        ∧ (checkSQLInjection (post (str "application/json") numberAndBool parseNothing)).1
            = none) := by
  have _ := hParsed
  refine ⟨?_, fun _ => rfl, fun _ => rfl, rfl, fun rename => ?_, ⟨by rfl, by decide, by decide⟩,
    ⟨by rfl, by decide, by decide⟩⟩
  · rw [Ne, checkJSON_eq_none_iff]
    push_neg
    rfl
  · exact checkJSONValues_rename rename entries

/-- Witness of C7: the nested `<script>` is a string leaf that is rejected. -/
theorem checkJSON_rejects_iff_string_leaf_witness :
    ∃ s ∈ (json.Value.object nestedScriptMap).strings, checkMaliciousContent s ≠ none :=
  ((checkJSON_rejects_iff_string_leaf nestedScript nestedScriptMap (by rfl)).1).1 (by decide)

/-- Counterexample to C8 as stated: the body `["a;"]` is a valid JSON document whose string leaf
`a;` is classified as SQL injection; `json.Unmarshal` into the map fails on it and
`checkSQLInjection` returns `nil`. -/
theorem top_level_array_not_inspected :
    arrayOfStatement.Method = str "POST"
    ∧ Contains arrayOfStatement.ContentType (str "application/json") = true
    ∧ json.Decode arrayOfStatement.Body.ReadAll.1
        = some (json.Value.array [json.Value.string (str "a;")])
    ∧ checkMaliciousContent (str "a;") = some (str "SQL injection pattern detected")
    ∧ json.Unmarshal arrayOfStatement.Body.ReadAll.1 = none
    ∧ (checkSQLInjection arrayOfStatement).1 = none := by
  refine ⟨rfl, by decide, by rfl, by decide, by rfl, by decide⟩

-- The example with the number `1e400` evaluates the power `10^400`.
set_option exponentiation.threshold 512

/-- Claim C8, amended. For every POST request with a JSON content type, parsing counts as
successful exactly when `json.Unmarshal` decodes the body into the map: the body is then a JSON
document whose top-level value is an object, decoded to its map, or `null`, decoded to the map
without entries. Every string leaf of the decoded map is then inspected: if one of them is
classified as an attack, `checkSQLInjection` returns an error and a request that the rate limiter
allows is answered 403. A body that decodes to a boolean, a number, a string or an array, or
that does not decode at all, counts as a parse failure. After a parse failure no JSON leaf is
inspected: `checkSQLInjection` returns `nil` iff the query, the raw body and the form pass. The
decoded map holds the last value of a key named twice, so that `{"a": "x;", "a": 1}` passes, and
a number beyond the range of `float64` makes the decoding fail, so that
`{"q": "a;", "n": 1e400}` passes. -/
theorem object_string_leaves_inspected (r : Request)
    (hPost : r.Method = str "POST")
    (hType : Contains r.ContentType (str "application/json") = true) :
    (∀ entries, json.Unmarshal r.Body.ReadAll.1 = some entries ↔
        (json.Decode r.Body.ReadAll.1 = some (json.Value.object entries)
          ∨ (json.Decode r.Body.ReadAll.1 = some json.Value.null ∧ entries = [])))
    ∧ (∀ entries, json.Unmarshal r.Body.ReadAll.1 = some entries →
        (∃ s ∈ (json.Value.object entries).strings, checkMaliciousContent s ≠ none) →
        (checkSQLInjection r).1 ≠ none
        ∧ ∀ (fl : ℚ → ℚ) (rl : Buckets) (clk : Clock),
            (allow fl rl (hostOf r.RemoteAddr) clk).1 = true →
            (ServeHTTP fl rl clk r).1 = Response.Error (str "Forbidden") 403)
    ∧ ((∀ b, json.Decode r.Body.ReadAll.1 = some (json.Value.bool b) →
          json.Unmarshal r.Body.ReadAll.1 = none)
        ∧ (∀ n, json.Decode r.Body.ReadAll.1 = some (json.Value.number n) →
          json.Unmarshal r.Body.ReadAll.1 = none)
        ∧ (∀ s, json.Decode r.Body.ReadAll.1 = some (json.Value.string s) →
          json.Unmarshal r.Body.ReadAll.1 = none)
        ∧ (∀ items, json.Decode r.Body.ReadAll.1 = some (json.Value.array items) →
          json.Unmarshal r.Body.ReadAll.1 = none)
        ∧ (json.Decode r.Body.ReadAll.1 = none → json.Unmarshal r.Body.ReadAll.1 = none))
    ∧ (json.Unmarshal r.Body.ReadAll.1 = none →
        ((checkSQLInjection r).1 = none ↔
          checkMaliciousContent r.RawQuery = none
          ∧ checkMaliciousContent r.Body.ReadAll.1 = none
          ∧ (Contains r.ContentType (str "application/x-www-form-urlencoded") = true →
              (r.ParseForm (Body.reader r.Body.ReadAll.1)).err = false →
              checkForm (r.ParseForm (Body.reader r.Body.ReadAll.1)).Form = none)))
    ∧ (json.Unmarshal repeatedKey.Body.ReadAll.1 = some [(str "a", json.Value.number (str "1"))]
        ∧ checkMaliciousContent (str "x;") = some (str "SQL injection pattern detected")
        ∧ (checkSQLInjection repeatedKey).1 = none)
    ∧ (json.Decode numberOutOfRange.Body.ReadAll.1 = none
        ∧ json.Unmarshal numberOutOfRange.Body.ReadAll.1 = none
        ∧ checkMaliciousContent (str "a;") = some (str "SQL injection pattern detected")
        ∧ (checkSQLInjection numberOutOfRange).1 = none) := by
  have hdec : ∀ entries, json.Unmarshal r.Body.ReadAll.1 = some entries ↔
      (json.Decode r.Body.ReadAll.1 = some (json.Value.object entries)
        ∨ (json.Decode r.Body.ReadAll.1 = some json.Value.null ∧ entries = [])) := by
    intro entries
    unfold json.Unmarshal
    cases hd : json.Decode r.Body.ReadAll.1 with
    | none => simp
    | some v =>
      cases v with
      | object es => simp
      | null => simp [eq_comm]
      | bool _ => simp
      | number _ => simp
      | string _ => simp
      | array _ => simp
  refine ⟨hdec, fun entries hParsed hLeaf => ?_, ⟨?_, ?_, ?_, ?_, ?_⟩, fun hFail => ?_,
    ⟨by rfl, by decide, by decide⟩, ⟨by rfl, by rfl, by decide, by decide⟩⟩
  · have hrej : (checkSQLInjection r).1 ≠ none := by
      intro hnil
      rw [checkSQLInjection_eq_none_iff] at hnil
      have hc := (hnil.2 hPost).2.2 hType entries hParsed
      rw [checkJSON_eq_none_iff] at hc
      obtain ⟨s, hs, hbad⟩ := hLeaf
      exact hbad (hc s hs)
    refine ⟨hrej, fun fl rl clk hAllow => ?_⟩
    rw [ServeHTTP_of_allowed hAllow]
    cases h : (checkSQLInjection r).1 with
    | none => exact absurd h hrej
    | some e => rfl
  · intro b hd; unfold json.Unmarshal; rw [hd]
  · intro n hd; unfold json.Unmarshal; rw [hd]
  · intro s hd; unfold json.Unmarshal; rw [hd]
  · intro items hd; unfold json.Unmarshal; rw [hd]
  · intro hd; unfold json.Unmarshal; rw [hd]
  · rw [checkSQLInjection_eq_none_iff]
    constructor
    · intro h
      exact ⟨h.1, (h.2 hPost).1, (h.2 hPost).2.1⟩
    · intro h
      refine ⟨h.1, fun _ => ⟨h.2.1, h.2.2, fun _ entries hu => ?_⟩⟩
      rw [hFail] at hu
      cases hu

/-- Witness of C8: the leaf `a;` of the object `{"q": "a;"}` makes the request fail. -/
theorem object_string_leaves_inspected_witness :
    (checkSQLInjection objectOfStatement).1 ≠ none :=
  ((object_string_leaves_inspected objectOfStatement rfl (by decide)).2.1
    [(str "q", json.Value.string (str "a;"))] (by rfl)
    ⟨str "a;", by simp [json.Value.strings, json.stringsOfEntries], by decide⟩).1

/-- Counterexample to C9 as stated: a POST of `' OR '1'='1` is rejected for its raw body, and on
return the request holds the body of the connection, read to the end and closed: reading it
yields nothing. -/
theorem body_drained_after_rejection :
    tautologyAsText.Method = str "POST"
    ∧ tautologyAsText.Body = Body.conn (str "' OR '1'='1") false
    ∧ (checkSQLInjection tautologyAsText).1
        = some (str "malicious content detected in body: SQL injection pattern detected")
    ∧ (checkSQLInjection tautologyAsText).2.Body = Body.conn [] true
    ∧ (checkSQLInjection tautologyAsText).2.Body.ReadAll.1 = [] := by
  refine ⟨rfl, rfl, by decide, by decide, by decide⟩

/-- Claim C9, amended. For every POST request with body bytes `b`: on every path by which
`checkSQLInjection` returns `nil` the body has been re-attached and reading it yields exactly
`b`; a failure to parse the form or the JSON is such a path when the query and the raw body
pass; a rejection for the query leaves the body unread, so reading it yields `b` as well; a
rejection for the raw body leaves the body read to the end and closed. -/
theorem body_on_each_return_path (r : Request) (b : Bytes)
    (hPost : r.Method = str "POST") (hBody : r.Body = Body.conn b false) :
    ((checkSQLInjection r).1 = none →
        (checkSQLInjection r).2.Body = Body.reader b
        ∧ (checkSQLInjection r).2.Body.ReadAll.1 = b)
    ∧ (checkMaliciousContent r.RawQuery = none → checkMaliciousContent b = none →
        (Contains r.ContentType (str "application/x-www-form-urlencoded") = true →
          (r.ParseForm (Body.reader b)).err = true) →
        (Contains r.ContentType (str "application/json") = true → json.Unmarshal b = none) →
        (checkSQLInjection r).1 = none)
    ∧ (checkMaliciousContent r.RawQuery ≠ none →
        (checkSQLInjection r).1 ≠ none
        ∧ (checkSQLInjection r).2.Body = Body.conn b false
        ∧ (checkSQLInjection r).2.Body.ReadAll.1 = b)
    ∧ (checkMaliciousContent r.RawQuery = none → checkMaliciousContent b ≠ none →
        (checkSQLInjection r).1 ≠ none
        ∧ (checkSQLInjection r).2.Body = Body.conn [] true
        ∧ (checkSQLInjection r).2.Body.ReadAll.1 = []) := by
  have hread : r.Body.ReadAll.1 = b := by rw [hBody]; rfl
  refine ⟨fun hNil => ⟨checkSQLInjection_restores hPost hBody hNil,
    by rw [checkSQLInjection_restores hPost hBody hNil]; rfl⟩, ?_, ?_, ?_⟩
  · intro hq hb hform hjson
    rw [checkSQLInjection_eq_none_iff]
    refine ⟨hq, fun _ => ⟨by rw [hread]; exact hb, fun hct herr => ?_, fun hct entries hu => ?_⟩⟩
    · rw [hread, hform hct] at herr; cases herr
    · rw [hread, hjson hct] at hu; cases hu
  · intro hq
    cases hq' : checkMaliciousContent r.RawQuery with
    | none => exact absurd hq' hq
    | some e =>
      rw [checkSQLInjection_query hq']
      exact ⟨by simp, hBody, by rw [hBody]; rfl⟩
  · intro hq hb
    cases hb' : checkMaliciousContent b with
    | none => exact absurd hb' hb
    | some e =>
      rw [checkSQLInjection_body hq hPost (by rw [hread]; exact hb')]
      refine ⟨by simp, ?_, ?_⟩ <;> simp [hBody, Body.ReadAll, Body.Close]

/-- Witness of C9: truncated JSON does not parse, the request passes and its body is restored. -/
theorem body_on_each_return_path_witness :
    (checkSQLInjection truncatedJSON).1 = none
    ∧ (checkSQLInjection truncatedJSON).2.Body = Body.reader (str "\x7b\"a\": ") :=
  ⟨(body_on_each_return_path truncatedJSON (str "\x7b\"a\": ") rfl rfl).2.1
      (by decide) (by decide) (fun h => absurd h (by decide)) (fun _ => by rfl),
   ((body_on_each_return_path truncatedJSON (str "\x7b\"a\": ") rfl rfl).1 (by decide)).1⟩

end TinyWaf
